import Mathlib

/-! Formal model of the word-alignment and mispronunciation-verdict engine of the
label-pipeline repository: the homophone tables and sequence matcher from
src/transcribe/homophones.py, the two versions of detect_mispronunciation from
src/transcribe/mispronunciation.py and src/airtable_apply_annotations/mispronunciation.py,
and the segmenter overlapping_segments from src/transcribe/aligner.py.

Modelling conventions.  Python dicts from Nat to Nat are modelled as total functions
Nat to Nat defaulting to 0, Python sets of indices as Finset Nat, the float timestamps
as Rat since they are only parsed, copied and compared and never subject to arithmetic,
and fallible Python code as Except String.  The difflib.SequenceMatcher calls are
embedded from the CPython difflib algorithm: every call site uses
SequenceMatcher(None, a, b), so the junk set bjunk is empty and only the autojunk
heuristic of __chain_b remains, which is embedded in b2j_fn below. -/

set_option maxRecDepth 4000

/-- Empty string constant, used as the out-of-range default for list indexing
(the Python code never actually indexes out of range on the paths proved below). -/
def noWord : String := ""

def strDELETE : String := "DELETE"

def strADDITION : String := "ADDITION"

def strSUBSTITUTION : String := "SUBSTITUTION"

def strADDSUB : String := "ADDITION_SUBSTITUTION"

/-- Error text of the Python ValueError raised at src/transcribe/mispronunciation.py:177,
where a 2-name tuple pattern is bound to the 3-tuple returned by match_sequence. -/
def valueUnpackMsg : String := "ValueError: too many values to unpack (expected 2)"

/-- Error text of the Python TypeError raised by create_convert(*homophones) in
src/transcribe/homophones.py:516 when overlapping_segments passes homophones = None
for a language that has no entry in HOMOPHONES. -/
def typeErrorStarMsg : String := "TypeError: argument after * must be an iterable, not NoneType"

/-- Error text of the Python TypeError that would arise if the 2-tuple unpacked at
src/transcribe/mispronunciation.py:177 did not hold two index lists; unreachable. -/
def typeErrorShapeMsg : String := "TypeError: unexpected tuple contents"

/-- Error text of the Python KeyError raised at src/transcribe/aligner.py:183 if the last
item of an emitted run carries no end_time key. -/
def keyErrorEndMsg : String := "KeyError: end_time"

/-- The filler tuple of remove_fillers, src/transcribe/mispronunciation.py:128. -/
def fillers : List String := ["", "uh", "huh", "mm", "yeah", "mhm", "hmm", "hm"]

/-- remove_fillers from src/transcribe/mispronunciation.py:115-129: True exactly when
the word is not one of the fillers. -/
def remove_fillers (word : String) : Bool := decide (word ∉ fillers)

/-- The "en" entry of the HOMOPHONES table, src/transcribe/homophones.py:27-473.  Each
Python set literal is written as the list of its members in source order. -/
def HOMOPHONES_en : List (List String) := [
  ["accessary", "accessory"],
  ["ad", "add"],
  ["ail", "ale"],
  ["air", "heir"],
  ["aisle", "I\x27ll", "isle"],
  ["alf", "elf"],
  ["all", "awl"],
  ["allowed", "aloud"],
  ["alms", "arms"],
  ["altar", "alter"],
  ["arc", "ark"],
  ["aren\x27t", "aunt"],
  ["ate", "eight"],
  ["auger", "augur"],
  ["auk", "orc"],
  ["aural", "oral"],
  ["away", "aweigh"],
  ["awe", "oar", "or", "ore"],
  ["axel", "axle"],
  ["aye", "eye", "I"],
  ["bail", "bale"],
  ["bait", "bate"],
  ["baize", "bays"],
  ["bald", "bawled"],
  ["ball", "bawl"],
  ["band", "banned"],
  ["bard", "barred"],
  ["bare", "bear"],
  ["bark", "barque"],
  ["baron", "barren"],
  ["base", "bass"],
  ["bay", "bey"],
  ["bazaar", "bizarre"],
  ["be", "bee", "b"],
  ["beach", "beech"],
  ["bean", "been"],
  ["beat", "beet"],
  ["beau", "bow"],
  ["beer", "bier"],
  ["bel", "bell", "belle"],
  ["berry", "bury"],
  ["berth", "birth"],
  ["bight", "bite", "byte"],
  ["billed", "build"],
  ["bitten", "bittern"],
  ["blew", "blue"],
  ["bloc", "block"],
  ["boar", "bore"],
  ["board", "bored"],
  ["boarder", "border"],
  ["bold", "bowled"],
  ["boos", "booze"],
  ["born", "borne"],
  ["bough", "bow"],
  ["boy", "buoy"],
  ["brae", "bray"],
  ["braid", "brayed"],
  ["braise", "brays", "braze"],
  ["brake", "break"],
  ["bread", "bred"],
  ["brews", "bruise"],
  ["bridal", "bridle"],
  ["broach", "brooch"],
  ["bur", "burr"],
  ["but", "butt"],
  ["buy", "by", "bye"],
  ["buyer", "byre"],
  ["calendar", "calender"],
  ["call", "caul"],
  ["canvas", "canvass"],
  ["cast", "caste"],
  ["caster", "castor"],
  ["caught", "court"],
  ["caw", "core", "corps"],
  ["cede", "seed"],
  ["ceiling", "sealing"],
  ["cell", "sell"],
  ["censer", "censor", "sensor"],
  ["cent", "scent", "sent"],
  ["cereal", "serial"],
  ["cheap", "cheep"],
  ["check", "cheque"],
  ["choir", "quire"],
  ["chord", "cord"],
  ["cite", "sight", "site"],
  ["clack", "claque"],
  ["clew", "clue"],
  ["climb", "clime"],
  ["close", "cloze"],
  ["coal", "kohl"],
  ["coarse", "course"],
  ["coign", "coin"],
  ["colonel", "kernel"],
  ["complacent", "complaisant"],
  ["complement", "compliment"],
  ["coo", "coup"],
  ["cops", "copse"],
  ["council", "counsel"],
  ["cousin", "cozen"],
  ["creak", "creek"],
  ["crews", "cruise"],
  ["cue", "kyu", "queue"],
  ["curb", "kerb"],
  ["currant", "current"],
  ["cymbol", "symbol"],
  ["dam", "damn"],
  ["days", "daze"],
  ["dear", "deer"],
  ["descent", "dissent"],
  ["desert", "dessert"],
  ["deviser", "divisor"],
  ["dew", "due"],
  ["die", "dye"],
  ["discreet", "discrete"],
  ["doe", "doh", "dough"],
  ["done", "dun"],
  ["douse", "dowse"],
  ["draft", "draught"],
  ["dual", "duel"],
  ["earn", "urn"],
  ["eery", "eyrie"],
  ["ewe", "yew", "you"],
  ["faint", "feint"],
  ["fah", "far"],
  ["fair", "fare"],
  ["farther", "father"],
  ["fate", "f\u00C3\u00AAte"],
  ["faun", "fawn"],
  ["fay", "fey"],
  ["faze", "phase"],
  ["feat", "feet"],
  ["ferrule", "ferule"],
  ["few", "phew"],
  ["fie", "phi"],
  ["file", "phial"],
  ["find", "fined"],
  ["fir", "fur"],
  ["first", "1st"],
  ["fizz", "phiz"],
  ["flair", "flare"],
  ["flaw", "floor"],
  ["flea", "flee"],
  ["flex", "flecks"],
  ["flew", "flu", "flue"],
  ["floe", "flow"],
  ["flour", "flower"],
  ["foaled", "fold"],
  ["for", "fore", "four"],
  ["foreword", "forward"],
  ["fort", "fought"],
  ["forth", "fourth"],
  ["foul", "fowl"],
  ["franc", "frank"],
  ["freeze", "frieze"],
  ["friar", "fryer"],
  ["furs", "furze"],
  ["gait", "gate"],
  ["galipot", "gallipot"],
  ["gallop", "galop"],
  ["gamble", "gambol"],
  ["gays", "gaze"],
  ["genes", "jeans"],
  ["gild", "guild"],
  ["gilt", "guilt"],
  ["giro", "gyro"],
  ["gnaw", "nor"],
  ["gneiss", "nice"],
  ["gorilla", "guerilla"],
  ["grate", "great"],
  ["greave", "grieve"],
  ["greys", "graze"],
  ["grisly", "grizzly"],
  ["groan", "grown"],
  ["guessed", "guest"],
  ["hail", "hale"],
  ["hair", "hare"],
  ["hall", "haul"],
  ["hangar", "hanger"],
  ["hart", "heart"],
  ["haw", "hoar", "whore"],
  ["hay", "hey"],
  ["heal", "heel", "he\x27ll"],
  ["hear", "here"],
  ["heard", "herd"],
  ["he\x27d", "heed"],
  ["heroin", "heroine"],
  ["hew", "hue"],
  ["hi", "high"],
  ["higher", "hire"],
  ["him", "hymn"],
  ["ho", "hoe"],
  ["hoard", "horde"],
  ["hoarse", "horse"],
  ["holey", "holy", "wholly"],
  ["hour", "our"],
  ["idle", "idol"],
  ["in", "inn"],
  ["indict", "indite"],
  ["it\x27s", "its"],
  ["jewel", "joule"],
  ["key", "quay"],
  ["knave", "nave"],
  ["knead", "need"],
  ["knew", "new"],
  ["knight", "night"],
  ["knit", "nit"],
  ["knob", "nob"],
  ["knock", "nock"],
  ["knot", "not"],
  ["know", "no"],
  ["knows", "nose"],
  ["laager", "lager"],
  ["lac", "lack"],
  ["lade", "laid"],
  ["lain", "lane"],
  ["lam", "lamb"],
  ["laps", "lapse"],
  ["larva", "lava"],
  ["lase", "laze"],
  ["law", "lore"],
  ["lay", "ley"],
  ["lea", "lee"],
  ["leach", "leech"],
  ["lead", "led"],
  ["leak", "leek"],
  ["lean", "lien"],
  ["lessen", "lesson"],
  ["levee", "levy"],
  ["liar", "lyre"],
  ["licence", "license"],
  ["licker", "liquor"],
  ["lie", "lye"],
  ["lieu", "loo"],
  ["links", "lynx"],
  ["lo", "low"],
  ["load", "lode"],
  ["loan", "lone"],
  ["locks", "lox"],
  ["loop", "loupe"],
  ["loot", "lute"],
  ["made", "maid"],
  ["mail", "male"],
  ["main", "mane"],
  ["maize", "maze"],
  ["mall", "maul"],
  ["manna", "manner"],
  ["mantel", "mantle"],
  ["mare", "mayor"],
  ["mark", "marque"],
  ["marshal", "martial"],
  ["marten", "martin"],
  ["mask", "masque"],
  ["maw", "more"],
  ["me", "mi"],
  ["mean", "mien"],
  ["meat", "meet", "mete"],
  ["medal", "meddle"],
  ["metal", "mettle"],
  ["meter", "metre"],
  ["might", "mite"],
  ["miner", "minor", "mynah"],
  ["mind", "mined"],
  ["missed", "mist"],
  ["moat", "mote"],
  ["mode", "mowed"],
  ["moor", "more"],
  ["moose", "mousse"],
  ["morning", "mourning"],
  ["muscle", "mussel"],
  ["naval", "navel"],
  ["nay", "neigh"],
  ["nigh", "nye"],
  ["none", "nun"],
  ["od", "odd"],
  ["ode", "owed"],
  ["oh", "owe"],
  ["one", "won"],
  ["packed", "pact"],
  ["packs", "pax"],
  ["pail", "pale"],
  ["pain", "pane"],
  ["pair", "pare", "pear"],
  ["palate", "palette", "pallet"],
  ["pascal", "paschal"],
  ["paten", "patten", "pattern"],
  ["pause", "paws", "pores", "pours"],
  ["pawn", "porn"],
  ["pea", "pee"],
  ["peace", "piece"],
  ["peak", "peek", "peke", "pique"],
  ["peal", "peel"],
  ["pearl", "purl"],
  ["pedal", "peddle"],
  ["peer", "pier"],
  ["pi", "pie"],
  ["pica", "pika"],
  ["place", "plaice"],
  ["plain", "plane"],
  ["pleas", "please"],
  ["plum", "plumb"],
  ["pole", "poll"],
  ["poof", "pouffe"],
  ["practice", "practise"],
  ["praise", "prays", "preys"],
  ["principal", "principle"],
  ["profit", "prophet"],
  ["quarts", "quartz"],
  ["quean", "queen"],
  ["rain", "reign", "rein"],
  ["raise", "rays", "raze"],
  ["rap", "wrap"],
  ["raw", "roar"],
  ["read", "reed"],
  ["read", "red"],
  ["real", "reel"],
  ["reek", "wreak"],
  ["rest", "wrest"],
  ["retch", "wretch"],
  ["review", "revue"],
  ["rheum", "room"],
  ["right", "rite", "wright", "write"],
  ["ring", "wring"],
  ["road", "rode"],
  ["roe", "row"],
  ["role", "roll"],
  ["roo", "roux", "rue"],
  ["rood", "rude"],
  ["root", "route"],
  ["rose", "rows"],
  ["rota", "rotor"],
  ["rote", "wrote"],
  ["rough", "ruff"],
  ["rouse", "rows"],
  ["rung", "wrung"],
  ["rye", "wry"],
  ["saver", "savour"],
  ["spade", "spayed"],
  ["sale", "sail"],
  ["sane", "seine"],
  ["satire", "satyr"],
  ["sauce", "source"],
  ["saw", "soar", "sore"],
  ["scene", "seen"],
  ["scull", "skull"],
  ["sea", "see"],
  ["seam", "seem"],
  ["sear", "seer", "sere"],
  ["seas", "sees", "seize"],
  ["second", "2nd"],
  ["sew", "so", "sow"],
  ["shake", "sheikh"],
  ["shear", "sheer"],
  ["shoe", "shoo"],
  ["sic", "sick"],
  ["side", "sighed"],
  ["sign", "sine"],
  ["sink", "synch"],
  ["slay", "sleigh"],
  ["sloe", "slow"],
  ["sole", "soul"],
  ["some", "sum"],
  ["son", "sun"],
  ["sort", "sought"],
  ["spa", "spar"],
  ["staid", "stayed"],
  ["stair", "stare"],
  ["stake", "steak"],
  ["stalk", "stork"],
  ["stationary", "stationery"],
  ["steal", "steel"],
  ["stile", "style"],
  ["storey", "story"],
  ["straight", "strait"],
  ["sweet", "suite"],
  ["swat", "swot"],
  ["tacks", "tax"],
  ["tale", "tail"],
  ["talk", "torque"],
  ["tare", "tear"],
  ["taught", "taut", "tort"],
  ["te", "tea", "tee"],
  ["team", "teem"],
  ["tear", "tier"],
  ["teas", "tease"],
  ["terce", "terse"],
  ["tern", "turn"],
  ["there", "their", "they\x27re"],
  ["third", "3rd"],
  ["threw", "through"],
  ["throes", "throws"],
  ["throne", "thrown"],
  ["thyme", "time"],
  ["tic", "tick"],
  ["tide", "tied"],
  ["tire", "tyre"],
  ["to", "too", "two"],
  ["toad", "toed", "towed"],
  ["told", "tolled"],
  ["tole", "toll"],
  ["ton", "tun"],
  ["tor", "tore"],
  ["tough", "tuff"],
  ["troop", "troupe"],
  ["tuba", "tuber"],
  ["vain", "vane", "vein"],
  ["vale", "veil"],
  ["vial", "vile"],
  ["wail", "wale", "whale"],
  ["wain", "wane"],
  ["waist", "waste"],
  ["wait", "weight"],
  ["waive", "wave"],
  ["wall", "waul"],
  ["war", "wore"],
  ["ware", "wear", "where"],
  ["warn", "worn"],
  ["wart", "wort"],
  ["watt", "what"],
  ["wax", "whacks"],
  ["way", "weigh", "whey"],
  ["we", "wee", "whee"],
  ["weak", "week"],
  ["we\x27d", "weed"],
  ["weal", "we\x27ll", "wheel"],
  ["wean", "ween"],
  ["weather", "whether"],
  ["weaver", "weever"],
  ["weir", "we\x27re"],
  ["were", "whirr"],
  ["wet", "whet"],
  ["wheald", "wheeled"],
  ["which", "witch"],
  ["whig", "wig"],
  ["while", "wile"],
  ["whine", "wine"],
  ["whirl", "whorl"],
  ["whirled", "world"],
  ["whit", "wit"],
  ["white", "wight"],
  ["who\x27s", "whose"],
  ["woe", "whoa"],
  ["wood", "would"],
  ["yaw", "yore", "your", "you\x27re"],
  ["yoke", "yolk"],
  ["you\x27ll", "yule"]]

/-- The "id" entry of the HOMOPHONES table, src/transcribe/homophones.py:474-484. -/
def HOMOPHONES_id : List (List String) := [
  ["masa", "massa"],
  ["rok", "rock"],
  ["bank", "bang"],
  ["tuju", "tujuh"],
  ["tank", "tang"],
  ["sanksi", "sangsi"],
  ["syarat", "sarat"],
  ["khas", "kas"],
  ["babat", "babad"]]

def strEn : String := "en"

def strId : String := "id"

/-- The HOMOPHONES dict of src/transcribe/homophones.py as a lookup by language code. -/
def HOMOPHONES (language : String) : Option (List (List String)) :=
  if language = strEn then some HOMOPHONES_en
  else if language = strId then some HOMOPHONES_id
  else none

/-- The dict built by create_convert, src/transcribe/homophones.py:498:
for each family, list(family) is split as main followed by alternatives, and every
alternative is mapped to main.  Later entries overwrite earlier ones for duplicate
keys, which dict_get replicates by taking the last match.  Python iterates a set in
an unspecified hash order, so which member becomes main is implementation-defined;
the embedding fixes the source order, and none of the theorems below depend on the
choice of representative, only on the equivalence it induces. -/
def convert_dict (families : List (List String)) : List (String × String) :=
  (families.map (fun fam =>
    match fam with
    | [] => []
    | main :: alternatives => alternatives.map (fun w => (w, main)))).flatten

/-- Python d.get(w, w) on the insertion-ordered dict: the value of the last binding
of key w, or w itself when w is absent. -/
def dict_get (d : List (String × String)) (w : String) : String :=
  match (d.filter (fun p => p.1 = w)).getLast? with
  | some p => p.2
  | none => w

/-- The converter closure returned by create_convert, src/transcribe/homophones.py:499. -/
def create_convert (families : List (List String)) : List String → List String :=
  fun L => L.map (dict_get (convert_dict families))

/-- A matching block (besti, bestj, bestsize) of difflib.SequenceMatcher. -/
structure Best where
  i : Nat
  j : Nat
  size : Nat
deriving Repr, DecidableEq

/-- The b2j index of SequenceMatcher.__chain_b: the increasing list of positions of w
in b.  Since every call site passes isjunk = None, bjunk is empty; the autojunk
heuristic removes from the index every element that occurs more than
len(b) // 100 + 1 times when len(b) >= 200. -/
def b2j_fn (b : List String) (w : String) : List Nat :=
  if 200 ≤ b.length ∧ b.length / 100 + 1 < b.count w then []
  else (List.range b.length).filter (fun j => b.getD j noWord = w)

/-- The window-clamped diagonal run used to analyse find_longest_match on identical
sequences: wr j is the length of the maximal block of consecutive positions ending at
j, inside [alo, ahi), each of which occurs in the b2j index of its own element (for
b2j_fn this means its element is not removed by the autojunk heuristic). -/
def wr (a : List String) (bj : String → List Nat) (alo ahi : Nat) : Nat → Nat
  | 0 => if alo ≤ 0 ∧ 0 < ahi ∧ 0 ∈ bj (a.getD 0 noWord) then 1 else 0
  | j + 1 =>
    if alo ≤ j + 1 ∧ j + 1 < ahi ∧ j + 1 ∈ bj (a.getD (j + 1) noWord) then
      wr a bj alo ahi j + 1
    else 0

/-- One row of the find_longest_match dynamic program (the inner for-loop over
b2j.get(a[i], nothing)): j < blo is Python continue, bhi <= j is Python break
(the b2j lists are increasing), k = newj2len[j] = j2len.get(j-1, 0) + 1 reads the
previous row, where the j = 0 guard models Python j2len.get(-1, 0) = 0, and the best
block is replaced only on a strictly larger k, giving the earliest-match tie-break. -/
def smRow (i blo bhi : Nat) (j2len : Nat → Nat) :
    List Nat → (Nat → Nat) → Best → ((Nat → Nat) × Best)
  | [], newj2len, best => (newj2len, best)
  | j :: js, newj2len, best =>
    if j < blo then smRow i blo bhi j2len js newj2len best
    else if bhi ≤ j then (newj2len, best)
    else
      let k := (if j = 0 then 0 else j2len (j - 1)) + 1
      let newj2len := Function.update newj2len j k
      let best := if best.size < k then ⟨i + 1 - k, j + 1 - k, k⟩ else best
      smRow i blo bhi j2len js newj2len best

/-- The outer for-loop of find_longest_match over i in range(alo, ahi); each row starts
from a fresh empty newj2len and threads the best block through. -/
def smRows (a : List String) (bj : String → List Nat) (blo bhi : Nat) :
    List Nat → (Nat → Nat) → Best → Best
  | [], _, best => best
  | i :: is, j2len, best =>
    let rb := smRow i blo bhi j2len (bj (a.getD i noWord)) (fun _ => 0) best
    smRows a bj blo bhi is rb.1 rb.2

/-- The first while-loop of find_longest_match, extending the best block to the left
over equal elements; with bjunk empty the not-junk condition is always true and the
later pair of junk-extension loops never fires.  The loop is written with a fuel
parameter so that it computes by structural recursion: each iteration decreases
best.i by one, so running it with fuel = best.i (as extendLeft does) is exact, since
once the fuel is exhausted best.i = 0 and the loop guard alo < best.i is false anyway;
extendLeftF_congr below proves the fuel irrelevance. -/
def extendLeftF (a b : List String) (alo blo : Nat) : Nat → Best → Best
  | 0, best => best
  | fuel + 1, best =>
    if alo < best.i ∧ blo < best.j ∧
        a.getD (best.i - 1) noWord = b.getD (best.j - 1) noWord then
      extendLeftF a b alo blo fuel ⟨best.i - 1, best.j - 1, best.size + 1⟩
    else best

def extendLeft (a b : List String) (alo blo : Nat) (best : Best) : Best :=
  extendLeftF a b alo blo best.i best

/-- The second while-loop of find_longest_match, extending the best block to the right
over equal elements, again with exact fuel ahi - (best.i + best.size): each iteration
decreases that quantity by one, and at zero the guard best.i + best.size < ahi is
false. -/
def extendRightF (a b : List String) (ahi bhi : Nat) : Nat → Best → Best
  | 0, best => best
  | fuel + 1, best =>
    if best.i + best.size < ahi ∧ best.j + best.size < bhi ∧
        a.getD (best.i + best.size) noWord = b.getD (best.j + best.size) noWord then
      extendRightF a b ahi bhi fuel ⟨best.i, best.j, best.size + 1⟩
    else best

def extendRight (a b : List String) (ahi bhi : Nat) (best : Best) : Best :=
  extendRightF a b ahi bhi (ahi - (best.i + best.size)) best

/-- find_longest_match of difflib.SequenceMatcher on the window
[alo, ahi) x [blo, bhi), for the isjunk = None call sites. -/
def find_longest_match (a b : List String) (bj : String → List Nat)
    (alo ahi blo bhi : Nat) : Best :=
  extendRight a b ahi bhi (extendLeft a b alo blo
    (smRows a bj blo bhi (List.range' alo (ahi - alo)) (fun _ => 0) ⟨alo, blo, 0⟩))

/-- Invariant of the j2len dict after cnt rows of the dynamic program: nonzero entries
lie in the window [blo, bhi) and are bounded by the row count and the distance to blo. -/
def J2Inv (blo bhi cnt : Nat) (f : Nat → Nat) : Prop :=
  ∀ j, f j ≠ 0 → blo ≤ j ∧ j < bhi ∧ f j ≤ cnt ∧ f j ≤ j + 1 - blo

/-- Invariant of the running best block: a block of size zero is still the initial
(alo, blo, 0), and a nonzero block lies inside the window. -/
def BestInv (alo ahi blo bhi : Nat) (best : Best) : Prop :=
  (best.size = 0 → best.i = alo ∧ best.j = blo) ∧
  (best.size ≠ 0 → alo ≤ best.i ∧ blo ≤ best.j ∧
    best.i + best.size ≤ ahi ∧ best.j + best.size ≤ bhi)

/-- The recursive exploration of get_matching_blocks.  CPython drives it with an
explicit queue and sorts the collected blocks afterwards; popping from the end of the
queue only permutes the order in which windows are visited, so the in-order recursion
below produces the same blocks, already sorted.  The recursion is written structurally
on a fuel parameter bounding ahi - alo, which strictly decreases at each recursive
call; with fuel = ahi - alo (as get_matching_blocks_rec passes) the zero case is
reached only on an empty window, where find_longest_match returns a size-0 block and
the true result is [] as well; gmb_rec_congr below proves the fuel irrelevance. -/
def gmb_rec (a b : List String) (bj : String → List Nat) :
    Nat → Nat → Nat → Nat → Nat → List Best
  | 0, _, _, _, _ => []
  | fuel + 1, alo, ahi, blo, bhi =>
    if (find_longest_match a b bj alo ahi blo bhi).size = 0 then []
    else
      (if alo < (find_longest_match a b bj alo ahi blo bhi).i ∧
          blo < (find_longest_match a b bj alo ahi blo bhi).j then
        gmb_rec a b bj fuel alo (find_longest_match a b bj alo ahi blo bhi).i
          blo (find_longest_match a b bj alo ahi blo bhi).j
      else []) ++
      find_longest_match a b bj alo ahi blo bhi ::
      (if (find_longest_match a b bj alo ahi blo bhi).i +
          (find_longest_match a b bj alo ahi blo bhi).size < ahi ∧
          (find_longest_match a b bj alo ahi blo bhi).j +
          (find_longest_match a b bj alo ahi blo bhi).size < bhi then
        gmb_rec a b bj fuel
          ((find_longest_match a b bj alo ahi blo bhi).i +
            (find_longest_match a b bj alo ahi blo bhi).size) ahi
          ((find_longest_match a b bj alo ahi blo bhi).j +
            (find_longest_match a b bj alo ahi blo bhi).size) bhi
      else [])

def get_matching_blocks_rec (a b : List String) (bj : String → List Nat)
    (alo ahi blo bhi : Nat) : List Best :=
  gmb_rec a b bj (ahi - alo) alo ahi blo bhi

/-- Python tuple comparison (i, j, size) <= (i2, j2, size2) used by list.sort. -/
def blockLe (x y : Best) : Bool :=
  decide (x.i < y.i) || (decide (x.i = y.i) &&
    (decide (x.j < y.j) || (decide (x.j = y.j) && decide (x.size ≤ y.size))))

def insertBlock (x : Best) : List Best → List Best
  | [] => [x]
  | y :: ys => if blockLe x y then x :: y :: ys else y :: insertBlock x ys

/-- Python list.sort on (i, j, size) tuples.  list.sort is a stable comparison sort and
blockLe is a total preorder, so any stable sort has the same output; insertion sort is
used here. -/
def sortBlocks (l : List Best) : List Best := l.foldr insertBlock []

/-- The merge loop of get_matching_blocks, collapsing adjacent blocks:
starting from i1 = j1 = k1 = 0, a block with i1 + k1 == i2 and j1 + k1 == j2 is fused
into the current one, otherwise the current block is emitted if nonempty. -/
def merge_adjacent (cur : Best) : List Best → List Best
  | [] => if cur.size ≠ 0 then [cur] else []
  | B :: rest =>
    if cur.i + cur.size = B.i ∧ cur.j + cur.size = B.j then
      merge_adjacent ⟨cur.i, cur.j, cur.size + B.size⟩ rest
    else
      (if cur.size ≠ 0 then [cur] else []) ++ merge_adjacent B rest

/-- get_matching_blocks of difflib.SequenceMatcher: recursion, sort, adjacency merge,
then the terminating sentinel block (len(a), len(b), 0). -/
def get_matching_blocks (a b : List String) (bj : String → List Nat) : List Best :=
  merge_adjacent ⟨0, 0, 0⟩ (sortBlocks (get_matching_blocks_rec a b bj 0 a.length 0 b.length))
    ++ [⟨a.length, b.length, 0⟩]

inductive OpTag where
  | replace
  | delete
  | insert
  | equal
deriving Repr, DecidableEq

/-- One opcode (tag, i1, i2, j1, j2) of SequenceMatcher.get_opcodes. -/
structure Opcode where
  tag : OpTag
  a1 : Nat
  a2 : Nat
  b1 : Nat
  b2 : Nat
deriving Repr, DecidableEq

/-- The loop body of get_opcodes: a gap before each matching block becomes a
replace, delete or insert opcode, and each nonempty block becomes an equal opcode. -/
def get_opcodes_go (i j : Nat) : List Best → List Opcode
  | [] => []
  | B :: rest =>
    (if i < B.i ∧ j < B.j then [⟨OpTag.replace, i, B.i, j, B.j⟩]
     else if i < B.i then [⟨OpTag.delete, i, B.i, j, B.j⟩]
     else if j < B.j then [⟨OpTag.insert, i, B.i, j, B.j⟩]
     else []) ++
    (if B.size ≠ 0 then [⟨OpTag.equal, B.i, B.i + B.size, B.j, B.j + B.size⟩] else []) ++
    get_opcodes_go (B.i + B.size) (B.j + B.size) rest

/-- The two flat index lists built by match_sequence from the matching blocks:
for each block, the runs block.a + i and block.b + i for i in range(block.size). -/
def outsA (blocks : List Best) : List Nat :=
  (blocks.map (fun B => (List.range B.size).map (fun t => B.i + t))).flatten

def outsB (blocks : List Best) : List Nat :=
  (blocks.map (fun B => (List.range B.size).map (fun t => B.j + t))).flatten

/-- match_sequence of src/transcribe/homophones.py:502-527: canonicalize both lists
through the homophone dictionary, run SequenceMatcher, and return the matched index
lists of both sequences together with the opcodes. -/
def match_sequence (list1 list2 : List String) (homophones : List (List String)) :
    List Nat × List Nat × List Opcode :=
  let convert := create_convert homophones
  let ca := convert list1
  let cb := convert list2
  let blocks := get_matching_blocks ca cb (b2j_fn cb)
  (outsA blocks, outsB blocks, get_opcodes_go 0 0 blocks)

/-- The MispronunciationType enum of src/transcribe/mispronunciation.py. -/
inductive MispronunciationType where
  | ADDITION
  | SUBSTITUTION
deriving Repr, DecidableEq

/-- The data carried by the Mispronunciation object of src/transcribe/mispronunciation.py
(the caller-mutable job_name, audio_url and language fields start as None and are not
part of the classification result). -/
structure Mispronunciation where
  type : List MispronunciationType
  lists : List String × List String
  differences : List String × List String
deriving Repr, DecidableEq

/-- A value of the 3-tuple returned by match_sequence, as seen by Python tuple
unpacking, which only inspects the arity. -/
inductive PyVal where
  | intList (xs : List Nat)
  | opcodeList (ops : List Opcode)

/-- The tuple (output1, output2, opcodes) returned by match_sequence, at the arity
level of Python sequence unpacking. -/
def match_sequence_tuple (l1 l2 : List String) (hom : List (List String)) : List PyVal :=
  [PyVal.intList (match_sequence l1 l2 hom).1,
   PyVal.intList (match_sequence l1 l2 hom).2.1,
   PyVal.opcodeList (match_sequence l1 l2 hom).2.2]

/-- Python binding of a 2-name tuple pattern: succeeds only on a 2-element tuple,
otherwise raises ValueError.  This models line 177 of src/transcribe/mispronunciation.py,
aligned_tsc, aligned_gt = match_sequence(transcript, ground_truth, homophones). -/
def unpack2 : List PyVal → Except String (PyVal × PyVal)
  | [x, y] => Except.ok (x, y)
  | _ => Except.error valueUnpackMsg

/-- detect_mispronunciation of src/transcribe/mispronunciation.py:132-206.
The homophones parameter defaults to HOMOPHONES["en"] when None; fillers are removed
from the transcript only; a single-word ground truth or an empty filtered transcript
returns None before the aligner runs.  The code after the match_sequence call is dead:
the 2-name unpacking of the 3-tuple raises ValueError, which the Except models; the
verdict logic of lines 179-206 is nevertheless embedded in the ok branch, with the
Python iteration over the index sets modelled in ascending order. -/
def detect_mispronunciation_transcribe (ground_truth transcript : List String)
    (homophones : Option (List (List String))) : Except String (Option Mispronunciation) :=
  let homophones := homophones.getD HOMOPHONES_en
  let transcript := transcript.filter remove_fillers
  if ground_truth.length = 1 ∨ transcript.length = 0 then Except.ok none
  else
    match unpack2 (match_sequence_tuple transcript ground_truth homophones) with
    | Except.error e => Except.error e
    | Except.ok (PyVal.intList aligned_tsc, PyVal.intList aligned_gt) =>
      let tsc_diff := (Finset.range transcript.length).filter (fun idx => idx ∉ aligned_tsc)
      let gt_diff := (Finset.range ground_truth.length).filter (fun idx => idx ∉ aligned_gt)
      let tsc_diff_words := (tsc_diff.sort (· ≤ ·)).map (fun idx => transcript.getD idx noWord)
      let gt_diff_words := (gt_diff.sort (· ≤ ·)).map (fun idx => ground_truth.getD idx noWord)
      let mk := fun t => Mispronunciation.mk t (ground_truth, transcript)
        (gt_diff_words, tsc_diff_words)
      if gt_diff.card = 0 ∧ tsc_diff.card = 0 then Except.ok none
      else if 0 < gt_diff.card ∧ tsc_diff.card = 0 then Except.ok none
      else if gt_diff.card = 0 ∧ 0 < tsc_diff.card then
        Except.ok (some (mk [MispronunciationType.ADDITION]))
      else if tsc_diff.card = gt_diff.card then
        Except.ok (some (mk [MispronunciationType.SUBSTITUTION]))
      else if gt_diff.card < tsc_diff.card then
        Except.ok (some (mk [MispronunciationType.ADDITION, MispronunciationType.SUBSTITUTION]))
      else Except.ok none
    | Except.ok _ => Except.error typeErrorShapeMsg

/-- detect_mispronunciation of src/airtable_apply_annotations/mispronunciation.py:19-66.
This version unpacks all three results of match_sequence, does not filter fillers,
requires the residue index sets to be equal (not merely of equal size) for
SUBSTITUTION, and encodes the null verdict as the string DELETE. -/
def detect_mispronunciation_airtable (ground_truth transcript : List String)
    (homophones : Option (List (List String))) : String :=
  let homophones := homophones.getD HOMOPHONES_en
  if ground_truth.length = 1 ∨ transcript.length = 0 then strDELETE
  else
    let p := match_sequence transcript ground_truth homophones
    let aligned_tsc := p.1
    let aligned_gt := p.2.1
    if aligned_tsc.length = 0 ∧ aligned_gt.length = 0 then strDELETE
    else
      let tsc_diff := (Finset.range transcript.length).filter (fun idx => idx ∉ aligned_tsc)
      let gt_diff := (Finset.range ground_truth.length).filter (fun idx => idx ∉ aligned_gt)
      if gt_diff.card = 0 ∧ tsc_diff.card = 0 then strDELETE
      else if 0 < gt_diff.card ∧ tsc_diff.card = 0 then strDELETE
      else if gt_diff.card = 0 ∧ 0 < tsc_diff.card then strADDITION
      else if tsc_diff.card = gt_diff.card ∧ tsc_diff = gt_diff then strSUBSTITUTION
      else if gt_diff.card ≤ tsc_diff.card then strADDSUB
      else strDELETE

/-- One item of the Amazon Transcribe results list (spec section 6): a pronunciation
item has type "pronunciation" and carries start_time and end_time, a punctuation item
has type "punctuation" and no timestamps.  content is alternatives[0].content, and the
timestamps are modelled as already parsed rationals. -/
structure TranscriptItem where
  type : String
  content : String
  start_time : Option Rat
  end_time : Option Rat
deriving Repr, DecidableEq

def dummyItem : TranscriptItem := ⟨noWord, noWord, none, none⟩

def strTranscription : String := "transcription"

def strLabels : String := "labels"

def strRegionGT : String := "region-ground-truth"

def strAudio : String := "audio"

def strTextarea : String := "textarea"

def strSentence : String := "Sentence"

def strSentencePrefix : String := "sentence_"

def strSpace : String := " "

/-- One Label Studio annotation entry as built by init_label_studio_annotation and then
filled in by overlapping_segments; vstart and vend are the start and end keys of the
value dict. -/
structure LSEntry where
  vstart : Rat
  vend : Rat
  text : List String
  labels : List String
  id : String
  from_name : String
  to_name : String
  type : String
deriving Repr, DecidableEq

/-- The fully assigned entry triple appended for one emitted run,
src/transcribe/aligner.py:162-189: the initial values of init_label_studio_annotation
are all overwritten before the function returns.  Note that the region-ground-truth
entry receives the same overlap text as the transcription entry (lines 186-189). -/
def entry_triple (sentence_id : String) (st en : Rat) (overlap : List String) :
    List LSEntry :=
  [⟨st, en, overlap, [], sentence_id, strTranscription, strAudio, strTextarea⟩,
   ⟨st, en, [], [strSentence], sentence_id, strLabels, strAudio, strLabels⟩,
   ⟨st, en, overlap, [], sentence_id, strRegionGT, strAudio, strTextarea⟩]

/-- Python str.lower(), character-wise (the inputs here are ASCII words). -/
def py_lower (s : String) : String := String.mk (s.toList.map Char.toLower)

def py_is_space (c : Char) : Bool :=
  c = ' ' || c = '\t' || c = '\n' || c = '\r' || c = '\x0b' || c = '\x0c'

/-- Python str.strip(): remove leading and trailing whitespace. -/
def py_strip (s : String) : String :=
  String.mk (((s.toList.dropWhile py_is_space).reverse.dropWhile py_is_space).reverse)

/-- Python str.replace("-", " ") for the single-character pattern. -/
def py_replace_dash (s : String) : String :=
  String.mk (s.toList.map (fun c => if c = '-' then ' ' else c))

/-- Python str.split(" ") on the character list: split at every single space,
keeping empty fragments; the result is never empty. -/
def split_space : List Char → List (List Char)
  | [] => [[]]
  | c :: rest =>
    if c = ' ' then [] :: split_space rest
    else
      match split_space rest with
      | [] => [[c]]
      | g :: gs => (c :: g) :: gs

def py_split_space (s : String) : List String :=
  (split_space s.toList).map (fun g => String.mk g)

/-- The ground-truth word list of overlapping_segments, src/transcribe/aligner.py:138:
ground_truth.lower().strip().replace("-", " ").split(" "). -/
def gt_words (ground_truth : String) : List String :=
  py_split_space (py_replace_dash (py_strip (py_lower ground_truth)))

/-- Grouping of the matched transcript indices into maximal runs of consecutive
integers.  In src/transcribe/aligner.py:151 this is
groupby(enumerate(aligned_transcripts), lambda x: x[0] - x[1]); two adjacent elements
v and w share a key exactly when w = v + 1, so the groups are exactly the maximal
runs of consecutive successors. -/
def group_consecutive : List Nat → List (List Nat)
  | [] => []
  | x :: xs =>
    match group_consecutive xs with
    | [] => [[x]]
    | run :: rest =>
      match run with
      | [] => [x] :: rest
      | y :: r => if y = x + 1 then (x :: y :: r) :: rest else [x] :: (y :: r) :: rest

/-- The emission loop of overlapping_segments over the runs of matched transcript
indices, src/transcribe/aligner.py:151-191.  A run whose first item has no start_time
is skipped without advancing the sentence counter; accessing end_time of the last item
raises KeyError when absent (modelled as an error); otherwise the three Label Studio
entries are appended. -/
def emit_runs (results : List TranscriptItem) (transcripts : List String) :
    Nat → List (List Nat) → Except String (List LSEntry)
  | _, [] => Except.ok []
  | counter, run :: rest =>
    let first := run.headD 0
    let last := run.getLastD 0
    match (results.getD first dummyItem).start_time with
    | none => emit_runs results transcripts counter rest
    | some st =>
      match (results.getD last dummyItem).end_time with
      | none => Except.error keyErrorEndMsg
      | some en =>
        let overlap := [String.intercalate strSpace
          ((transcripts.drop first).take (last + 1 - first))]
        let sid := strSentencePrefix ++ toString counter
        match emit_runs results transcripts (counter + 1) rest with
        | Except.error e => Except.error e
        | Except.ok tl => Except.ok (entry_triple sid st en overlap ++ tl)

/-- The lower-cased, stripped transcript token list of overlapping_segments,
src/transcribe/aligner.py:134-136. -/
def aligner_transcripts (results : List TranscriptItem) : List String :=
  results.map (fun item => py_strip (py_lower item.content))

/-- The repeat multiplier of overlapping_segments, src/transcribe/aligner.py:142-144:
max_repeats if truthy (not None and nonzero), else ceil(len(transcripts) /
len(ground_truth)); the word list returned by split(" ") is never empty, so the
Python float division never divides by zero. -/
def repeat_multiplier (results : List TranscriptItem) (ground_truth : String)
    (max_repeats : Option Nat) : Nat :=
  match max_repeats with
  | some n =>
    if n ≠ 0 then n
    else ((aligner_transcripts results).length + (gt_words ground_truth).length - 1) /
      (gt_words ground_truth).length
  | none =>
    ((aligner_transcripts results).length + (gt_words ground_truth).length - 1) /
      (gt_words ground_truth).length

/-- The matched transcript indices computed inside overlapping_segments:
first component of match_sequence between the transcript tokens and the repeated
ground-truth word list. -/
def aligned_of (results : List TranscriptItem) (ground_truth : String)
    (max_repeats : Option Nat) (homophones : List (List String)) : List Nat :=
  (match_sequence (aligner_transcripts results)
    (List.replicate (repeat_multiplier results ground_truth max_repeats)
      (gt_words ground_truth)).flatten homophones).1

/-- overlapping_segments of src/transcribe/aligner.py:110-193, with its let-bound
subexpressions split into the named definitions above.  For a language without a
HOMOPHONES entry the Python code passes homophones = None into match_sequence, where
create_convert(*None) raises TypeError, modelled by the error branch. -/
def overlapping_segments (results : List TranscriptItem) (ground_truth : String)
    (language : String) (max_repeats : Option Nat) : Except String (List LSEntry) :=
  match HOMOPHONES language with
  | none => Except.error typeErrorStarMsg
  | some homophones =>
    emit_runs results (aligner_transcripts results) 0
      (group_consecutive (aligned_of results ground_truth max_repeats homophones))

/-- Block B lies entirely before block C in both sequences. -/
def blkBefore (B C : Best) : Prop := B.i + B.size ≤ C.i ∧ B.j + B.size ≤ C.j

/-- A nonempty block contained in the window [alo, ahi) x [blo, bhi). -/
def InWindow (alo ahi blo bhi : Nat) (B : Best) : Prop :=
  alo ≤ B.i ∧ B.i + B.size ≤ ahi ∧ blo ≤ B.j ∧ B.j + B.size ≤ bhi ∧ 1 ≤ B.size

/-- Position chain of a block list: each block starts at or after the running
positions, and the final positions stay within la and lb. -/
def ChainBds (la lb : Nat) : Nat → Nat → List Best → Prop
  | i, j, [] => i ≤ la ∧ j ≤ lb
  | i, j, B :: rest => i ≤ B.i ∧ j ≤ B.j ∧ ChainBds la lb (B.i + B.size) (B.j + B.size) rest

/-- Position chain ending exactly at (la, lb): the shape of the block list with the
sentinel appended. -/
def ChainEnds (la lb : Nat) : Nat → Nat → List Best → Prop
  | i, j, [] => i = la ∧ j = lb
  | i, j, B :: rest => i ≤ B.i ∧ j ≤ B.j ∧ ChainEnds la lb (B.i + B.size) (B.j + B.size) rest

/-- The a-side intervals of an opcode list tile [i, n) consecutively. -/
def tileA : Nat → Nat → List Opcode → Prop
  | i, n, [] => i = n
  | i, n, op :: rest => op.a1 = i ∧ op.a1 ≤ op.a2 ∧ tileA op.a2 n rest

/-- The b-side intervals of an opcode list tile [j, n) consecutively. -/
def tileB : Nat → Nat → List Opcode → Prop
  | j, n, [] => j = n
  | j, n, op :: rest => op.b1 = j ∧ op.b1 ≤ op.b2 ∧ tileB op.b2 n rest

def strPronunciation : String := "pronunciation"

def strXX : String := "xx"

def strMore : String := "more"

def strMasa : String := "masa"

def strMassa : String := "massa"

/-- The pair of residue index sets computed by detect_mispronunciation
(airtable version, lines 44-53): transcript indices and ground-truth indices not
matched by the aligner, with the homophones argument defaulted as in the function. -/
def residues (ground_truth transcript : List String)
    (homophones : Option (List (List String))) : Finset Nat × Finset Nat :=
  let hom := homophones.getD HOMOPHONES_en
  let p := match_sequence transcript ground_truth hom
  ((Finset.range transcript.length).filter (fun idx => idx ∉ p.1),
   (Finset.range ground_truth.length).filter (fun idx => idx ∉ p.2.1))

/-- Checks that the output is a sequence of entry triples in which the first
(transcription) and third (region-ground-truth) entries carry the same text. -/
def tripleTextsAgree : List LSEntry → Bool
  | t :: _ :: g :: rest => (t.text == g.text) && tripleTextsAgree rest
  | [] => true
  | _ => false

def strSentence0 : String := "sentence_0"

/-- The start times of the transcription entries of the output, one per emitted
segment. -/
def transcriptionStarts (out : List LSEntry) : List Rat :=
  out.filterMap (fun e => if e.from_name = strTranscription then some e.vstart else none)

def strXyz : String := "xyz"

def strRok : String := "rok"

def strMasaRok : String := "masa rok"

lemma extendLeftF_congr (a b : List String) (alo blo : Nat) :
    ∀ (fuel fuel' : Nat) (best : Best), best.i ≤ fuel → best.i ≤ fuel' →
      extendLeftF a b alo blo fuel best = extendLeftF a b alo blo fuel' best := by
  intro fuel
  induction fuel with
  | zero =>
    intro fuel' best h1 h2
    cases fuel' with
    | zero => rfl
    | succ fuel' =>
      rw [extendLeftF, extendLeftF, if_neg]
      intro hg
      omega
  | succ fuel ih =>
    intro fuel' best h1 h2
    cases fuel' with
    | zero =>
      rw [extendLeftF, extendLeftF, if_neg]
      intro hg
      omega
    | succ fuel' =>
      rw [extendLeftF, extendLeftF]
      by_cases hg : alo < best.i ∧ blo < best.j ∧
          a.getD (best.i - 1) noWord = b.getD (best.j - 1) noWord
      · rw [if_pos hg, if_pos hg]
        exact ih fuel' ⟨best.i - 1, best.j - 1, best.size + 1⟩ (by simp only; omega)
          (by simp only; omega)
      · rw [if_neg hg, if_neg hg]

lemma extendRightF_congr (a b : List String) (ahi bhi : Nat) :
    ∀ (fuel fuel' : Nat) (best : Best),
      ahi - (best.i + best.size) ≤ fuel → ahi - (best.i + best.size) ≤ fuel' →
      extendRightF a b ahi bhi fuel best = extendRightF a b ahi bhi fuel' best := by
  intro fuel
  induction fuel with
  | zero =>
    intro fuel' best h1 h2
    cases fuel' with
    | zero => rfl
    | succ fuel' =>
      rw [extendRightF, extendRightF, if_neg]
      intro hg
      omega
  | succ fuel ih =>
    intro fuel' best h1 h2
    cases fuel' with
    | zero =>
      rw [extendRightF, extendRightF, if_neg]
      intro hg
      omega
    | succ fuel' =>
      rw [extendRightF, extendRightF]
      by_cases hg : best.i + best.size < ahi ∧ best.j + best.size < bhi ∧
          a.getD (best.i + best.size) noWord = b.getD (best.j + best.size) noWord
      · rw [if_pos hg, if_pos hg]
        exact ih fuel' ⟨best.i, best.j, best.size + 1⟩ (by simp only; omega)
          (by simp only; omega)
      · rw [if_neg hg, if_neg hg]

lemma smRow_inv (alo ahi i blo bhi cnt : Nat) (j2len : Nat → Nat)
    (hJ : J2Inv blo bhi cnt j2len) (hi1 : alo ≤ i) (hi2 : i < ahi) (hcnt : cnt ≤ i - alo) :
    ∀ (js : List Nat) (new : Nat → Nat) (best : Best),
      J2Inv blo bhi (cnt + 1) new → BestInv alo ahi blo bhi best →
      J2Inv blo bhi (cnt + 1) (smRow i blo bhi j2len js new best).1 ∧
      BestInv alo ahi blo bhi (smRow i blo bhi j2len js new best).2 := by
  intro js
  induction js with
  | nil => intro new best hN hB; exact ⟨hN, hB⟩
  | cons j js ih =>
    intro new best hN hB
    rw [smRow]
    by_cases h1 : j < blo
    · rw [if_pos h1]; exact ih new best hN hB
    · rw [if_neg h1]
      by_cases h2 : bhi ≤ j
      · rw [if_pos h2]; exact ⟨hN, hB⟩
      · rw [if_neg h2]
        simp only
        have hblo : blo ≤ j := Nat.le_of_not_lt h1
        have hbhi : j < bhi := Nat.lt_of_not_le h2
        set k := (if j = 0 then 0 else j2len (j - 1)) + 1 with hk
        have hk1 : k ≤ cnt + 1 := by
          rw [hk]
          by_cases hz : j = 0
          · rw [if_pos hz]; omega
          · rw [if_neg hz]
            by_cases hv : j2len (j - 1) = 0
            · rw [hv]; omega
            · have := (hJ (j - 1) hv).2.2.1; omega
        have hk2 : k ≤ j + 1 - blo := by
          rw [hk]
          by_cases hz : j = 0
          · rw [if_pos hz]; omega
          · rw [if_neg hz]
            by_cases hv : j2len (j - 1) = 0
            · rw [hv]; omega
            · have h3 := (hJ (j - 1) hv).2.2.2
              have h4 := (hJ (j - 1) hv).1
              omega
        apply ih
        · intro j2 hj2
          by_cases he : j2 = j
          · subst he
            refine ⟨hblo, hbhi, ?_, ?_⟩ <;> rw [Function.update_same] <;> omega
          · rw [Function.update_noteq he] at hj2 ⊢
            exact hN j2 hj2
        · by_cases hlt : best.size < k
          · rw [if_pos hlt]
            constructor
            · intro h0; simp only at h0; omega
            · intro _
              simp only
              omega
          · rw [if_neg hlt]; exact hB

lemma smRows_inv (a : List String) (bj : String → List Nat) (alo ahi blo bhi : Nat) :
    ∀ (m i0 : Nat) (j2len : Nat → Nat) (best : Best),
      alo ≤ i0 → (∀ t, t < m → i0 + t < ahi) →
      J2Inv blo bhi (i0 - alo) j2len → BestInv alo ahi blo bhi best →
      BestInv alo ahi blo bhi (smRows a bj blo bhi (List.range' i0 m) j2len best) := by
  intro m
  induction m with
  | zero => intro i0 j2len best _ _ _ hB; simpa [smRows] using hB
  | succ m ih =>
    intro i0 j2len best h1 h2 hJ hB
    rw [List.range'_succ, smRows]
    have hi2 : i0 < ahi := by have := h2 0 (Nat.succ_pos m); omega
    have hrow := smRow_inv alo ahi i0 blo bhi (i0 - alo) j2len hJ h1 hi2 (Nat.le_refl _)
      (bj (a.getD i0 noWord)) (fun _ => 0) best (by intro j hj; simp at hj) hB
    have hcnt : i0 - alo + 1 = (i0 + 1) - alo := by omega
    refine ih (i0 + 1) _ _ (by omega) (fun t ht => by have := h2 (t + 1) (by omega); omega)
      ?_ hrow.2
    rw [← hcnt]
    exact hrow.1

lemma extendLeftF_inv (a b : List String) (alo ahi blo bhi : Nat) :
    ∀ (fuel : Nat) (best : Best), BestInv alo ahi blo bhi best →
      BestInv alo ahi blo bhi (extendLeftF a b alo blo fuel best) := by
  intro fuel
  induction fuel with
  | zero => intro best hB; exact hB
  | succ fuel ih =>
    intro best hB
    rw [extendLeftF]
    by_cases h : alo < best.i ∧ blo < best.j ∧
        a.getD (best.i - 1) noWord = b.getD (best.j - 1) noWord
    · rw [if_pos h]
      apply ih ⟨best.i - 1, best.j - 1, best.size + 1⟩
      obtain ⟨c1, c2⟩ := hB
      constructor
      · intro h0; simp only at h0; omega
      · intro _
        simp only
        by_cases hs : best.size = 0
        · have := c1 hs
          omega
        · have := c2 hs
          omega
    · rw [if_neg h]; exact hB

lemma extendRightF_inv (a b : List String) (alo ahi blo bhi : Nat) :
    ∀ (fuel : Nat) (best : Best), BestInv alo ahi blo bhi best →
      BestInv alo ahi blo bhi (extendRightF a b ahi bhi fuel best) := by
  intro fuel
  induction fuel with
  | zero => intro best hB; exact hB
  | succ fuel ih =>
    intro best hB
    rw [extendRightF]
    by_cases h : best.i + best.size < ahi ∧ best.j + best.size < bhi ∧
        a.getD (best.i + best.size) noWord = b.getD (best.j + best.size) noWord
    · rw [if_pos h]
      apply ih ⟨best.i, best.j, best.size + 1⟩
      obtain ⟨c1, c2⟩ := hB
      constructor
      · intro h0; simp only at h0; omega
      · intro _
        simp only
        by_cases hs : best.size = 0
        · have := c1 hs
          omega
        · have := c2 hs
          omega
    · rw [if_neg h]; exact hB

/-- The best block returned by find_longest_match satisfies the window invariant. -/
lemma flm_inv (a b : List String) (bj : String → List Nat) (alo ahi blo bhi : Nat) :
    BestInv alo ahi blo bhi (find_longest_match a b bj alo ahi blo bhi) := by
  unfold find_longest_match extendRight extendLeft
  apply extendRightF_inv a b alo ahi blo bhi
  apply extendLeftF_inv a b alo ahi blo bhi
  apply smRows_inv a bj alo ahi blo bhi (ahi - alo) alo (fun _ => 0) ⟨alo, blo, 0⟩
    (Nat.le_refl _) (fun t ht => by omega) (by intro j hj; simp at hj)
  exact ⟨fun _ => ⟨rfl, rfl⟩, fun h => absurd rfl h⟩

lemma gmb_rec_congr (a b : List String) (bj : String → List Nat) :
    ∀ (fuel fuel' alo ahi blo bhi : Nat), ahi - alo ≤ fuel → ahi - alo ≤ fuel' →
      gmb_rec a b bj fuel alo ahi blo bhi = gmb_rec a b bj fuel' alo ahi blo bhi := by
  have base : ∀ (fuel' alo ahi blo bhi : Nat), ahi - alo = 0 →
      gmb_rec a b bj fuel' alo ahi blo bhi = [] := by
    intro fuel' alo ahi blo bhi h0
    cases fuel' with
    | zero => rfl
    | succ fuel' =>
      rw [gmb_rec, if_pos]
      by_contra hs
      have := (flm_inv a b bj alo ahi blo bhi).2 hs
      omega
  intro fuel
  induction fuel with
  | zero =>
    intro fuel' alo ahi blo bhi h1 h2
    rw [base fuel' alo ahi blo bhi (by omega)]
    rfl
  | succ fuel ih =>
    intro fuel' alo ahi blo bhi h1 h2
    cases fuel' with
    | zero =>
      rw [base (fuel + 1) alo ahi blo bhi (by omega)]
      rfl
    | succ fuel' =>
      rw [gmb_rec, gmb_rec]
      by_cases hs : (find_longest_match a b bj alo ahi blo bhi).size = 0
      · rw [if_pos hs, if_pos hs]
      · rw [if_neg hs, if_neg hs]
        have hb := (flm_inv a b bj alo ahi blo bhi).2 hs
        by_cases hL : alo < (find_longest_match a b bj alo ahi blo bhi).i ∧
            blo < (find_longest_match a b bj alo ahi blo bhi).j
        · rw [if_pos hL, if_pos hL, ih fuel' _ _ _ _ (by omega) (by omega)]
          by_cases hR : (find_longest_match a b bj alo ahi blo bhi).i +
              (find_longest_match a b bj alo ahi blo bhi).size < ahi ∧
              (find_longest_match a b bj alo ahi blo bhi).j +
              (find_longest_match a b bj alo ahi blo bhi).size < bhi
          · rw [if_pos hR, if_pos hR, ih fuel' _ _ _ _ (by omega) (by omega)]
          · rw [if_neg hR, if_neg hR]
        · rw [if_neg hL, if_neg hL]
          by_cases hR : (find_longest_match a b bj alo ahi blo bhi).i +
              (find_longest_match a b bj alo ahi blo bhi).size < ahi ∧
              (find_longest_match a b bj alo ahi blo bhi).j +
              (find_longest_match a b bj alo ahi blo bhi).size < bhi
          · rw [if_pos hR, if_pos hR, ih fuel' _ _ _ _ (by omega) (by omega)]
          · rw [if_neg hR, if_neg hR]

lemma gmb_rec_sound (a b : List String) (bj : String → List Nat) :
    ∀ (fuel alo ahi blo bhi : Nat),
      (∀ B ∈ gmb_rec a b bj fuel alo ahi blo bhi, InWindow alo ahi blo bhi B) ∧
      (gmb_rec a b bj fuel alo ahi blo bhi).Pairwise blkBefore := by
  intro fuel
  induction fuel with
  | zero =>
    intro alo ahi blo bhi
    constructor
    · intro B hB; simp [gmb_rec] at hB
    · simp [gmb_rec]
  | succ fuel ih =>
    intro alo ahi blo bhi
    rw [gmb_rec]
    by_cases hs : (find_longest_match a b bj alo ahi blo bhi).size = 0
    · rw [if_pos hs]
      exact ⟨fun B hB => absurd hB (List.not_mem_nil B), List.Pairwise.nil⟩
    · rw [if_neg hs]
      have hb := (flm_inv a b bj alo ahi blo bhi).2 hs
      set m := find_longest_match a b bj alo ahi blo bhi with hm
      have hL : ∀ B ∈ (if alo < m.i ∧ blo < m.j then
            gmb_rec a b bj fuel alo m.i blo m.j else []),
          InWindow alo m.i blo m.j B := by
        by_cases hc : alo < m.i ∧ blo < m.j
        · rw [if_pos hc]; exact (ih alo m.i blo m.j).1
        · rw [if_neg hc]; intro B hB; simp at hB
      have hLp : (if alo < m.i ∧ blo < m.j then
            gmb_rec a b bj fuel alo m.i blo m.j else []).Pairwise blkBefore := by
        by_cases hc : alo < m.i ∧ blo < m.j
        · rw [if_pos hc]; exact (ih alo m.i blo m.j).2
        · rw [if_neg hc]; exact List.Pairwise.nil
      have hR : ∀ B ∈ (if m.i + m.size < ahi ∧ m.j + m.size < bhi then
            gmb_rec a b bj fuel (m.i + m.size) ahi (m.j + m.size) bhi else []),
          InWindow (m.i + m.size) ahi (m.j + m.size) bhi B := by
        by_cases hc : m.i + m.size < ahi ∧ m.j + m.size < bhi
        · rw [if_pos hc]; exact (ih (m.i + m.size) ahi (m.j + m.size) bhi).1
        · rw [if_neg hc]; intro B hB; simp at hB
      have hRp : (if m.i + m.size < ahi ∧ m.j + m.size < bhi then
            gmb_rec a b bj fuel (m.i + m.size) ahi (m.j + m.size) bhi else []).Pairwise
          blkBefore := by
        by_cases hc : m.i + m.size < ahi ∧ m.j + m.size < bhi
        · rw [if_pos hc]; exact (ih (m.i + m.size) ahi (m.j + m.size) bhi).2
        · rw [if_neg hc]; exact List.Pairwise.nil
      constructor
      · intro B hB
        rcases List.mem_append.1 hB with hB | hB
        · have := hL B hB
          unfold InWindow at this ⊢
          omega
        · rcases List.mem_cons.1 hB with rfl | hB
          · unfold InWindow
            omega
          · have := hR B hB
            unfold InWindow at this ⊢
            omega
      · rw [List.pairwise_append]
        refine ⟨hLp, ?_, ?_⟩
        · rw [List.pairwise_cons]
          refine ⟨fun C hC => ?_, hRp⟩
          have := hR C hC
          unfold InWindow at this
          unfold blkBefore
          omega
        · intro B hB C hC
          have h1 := hL B hB
          rcases List.mem_cons.1 hC with rfl | hC
          · unfold InWindow at h1
            unfold blkBefore
            omega
          · have h2 := hR C hC
            unfold InWindow at h1 h2
            unfold blkBefore
            omega

lemma sortBlocks_sorted_id :
    ∀ l : List Best, l.Pairwise (fun x y => blockLe x y = true) → sortBlocks l = l := by
  intro l
  induction l with
  | nil => intro _; rfl
  | cons x l ih =>
    intro hp
    rw [List.pairwise_cons] at hp
    show insertBlock x (sortBlocks l) = x :: l
    rw [ih hp.2]
    cases l with
    | nil => rfl
    | cons y ys =>
      rw [insertBlock, if_pos (hp.1 y (List.mem_cons_self y ys))]

lemma ChainBds_mono (la lb : Nat) :
    ∀ (l : List Best) (i j i' j' : Nat), ChainBds la lb i j l → i' ≤ i → j' ≤ j →
      ChainBds la lb i' j' l := by
  intro l
  cases l with
  | nil =>
    intro i j i' j' h h1 h2
    obtain ⟨ha, hb⟩ := h
    exact ⟨by omega, by omega⟩
  | cons B rest =>
    intro i j i' j' h h1 h2
    obtain ⟨a1, a2, a3⟩ := h
    exact ⟨by omega, by omega, a3⟩

lemma ChainBds_append_term (la lb : Nat) :
    ∀ (l : List Best) (i j : Nat), ChainBds la lb i j l →
      ChainEnds la lb i j (l ++ [⟨la, lb, 0⟩]) := by
  intro l
  induction l with
  | nil =>
    intro i j h
    exact ⟨h.1, h.2, by simp [ChainEnds]⟩
  | cons B rest ih =>
    intro i j h
    obtain ⟨a1, a2, a3⟩ := h
    exact ⟨a1, a2, ih _ _ a3⟩

lemma merge_adjacent_chain (la lb : Nat) :
    ∀ (blocks : List Best) (cur : Best),
      List.Chain blkBefore cur blocks →
      (∀ B ∈ blocks, B.i + B.size ≤ la ∧ B.j + B.size ≤ lb) →
      cur.i + cur.size ≤ la → cur.j + cur.size ≤ lb →
      ChainBds la lb cur.i cur.j (merge_adjacent cur blocks) := by
  intro blocks
  induction blocks with
  | nil =>
    intro cur _ _ h3 h4
    rw [merge_adjacent]
    by_cases hs : cur.size ≠ 0
    · rw [if_pos hs]
      exact ⟨Nat.le_refl _, Nat.le_refl _, by omega, by omega⟩
    · rw [if_neg hs]
      exact ⟨by omega, by omega⟩
  | cons B rest ih =>
    intro cur hchain hbnd h3 h4
    rw [List.chain_cons] at hchain
    obtain ⟨hcb, hchain⟩ := hchain
    have hBbnd := hbnd B (List.mem_cons_self B rest)
    rw [merge_adjacent]
    by_cases hm : cur.i + cur.size = B.i ∧ cur.j + cur.size = B.j
    · rw [if_pos hm]
      have hchain2 : List.Chain blkBefore ⟨cur.i, cur.j, cur.size + B.size⟩ rest := by
        cases rest with
        | nil => exact List.Chain.nil
        | cons C cs =>
          rw [List.chain_cons] at hchain ⊢
          refine ⟨?_, hchain.2⟩
          have := hchain.1
          unfold blkBefore at this ⊢
          simp only at this ⊢
          omega
      have := ih ⟨cur.i, cur.j, cur.size + B.size⟩ hchain2
        (fun C hC => hbnd C (List.mem_cons_of_mem B hC))
        (by simp only; omega) (by simp only; omega)
      simpa using this
    · rw [if_neg hm]
      have hrec := ih B hchain (fun C hC => hbnd C (List.mem_cons_of_mem B hC))
        (by omega) (by omega)
      by_cases hs : cur.size ≠ 0
      · rw [if_pos hs]
        refine ⟨Nat.le_refl _, Nat.le_refl _, ?_⟩
        unfold blkBefore at hcb
        exact ChainBds_mono la lb _ B.i B.j _ _ hrec hcb.1 hcb.2
      · rw [if_neg hs]
        unfold blkBefore at hcb
        rw [List.nil_append]
        exact ChainBds_mono la lb _ B.i B.j _ _ hrec (by omega) (by omega)

/-- The full block list of get_matching_blocks is a monotone tiling chain from (0, 0)
ending exactly at the sentinel (len a, len b, 0). -/
lemma get_matching_blocks_chainEnds (a b : List String) (bj : String → List Nat) :
    ChainEnds a.length b.length 0 0 (get_matching_blocks a b bj) := by
  unfold get_matching_blocks get_matching_blocks_rec
  apply ChainBds_append_term
  have hsound := gmb_rec_sound a b bj (a.length - 0) 0 a.length 0 b.length
  have hsort : sortBlocks (gmb_rec a b bj (a.length - 0) 0 a.length 0 b.length) =
      gmb_rec a b bj (a.length - 0) 0 a.length 0 b.length := by
    apply sortBlocks_sorted_id
    apply hsound.2.imp_of_mem
    intro x y hx hy hr
    have hx2 := hsound.1 x hx
    have hy2 := hsound.1 y hy
    unfold InWindow at hx2 hy2
    unfold blkBefore at hr
    simp only [blockLe, Bool.or_eq_true, Bool.and_eq_true, decide_eq_true_eq]
    omega
  rw [hsort]
  haveI : IsTrans Best blkBefore := by
    refine ⟨fun x y z h1 h2 => ?_⟩
    unfold blkBefore at h1 h2 ⊢
    omega
  have hchain : List.Chain blkBefore ⟨0, 0, 0⟩
      (gmb_rec a b bj (a.length - 0) 0 a.length 0 b.length) := by
    rw [List.chain_iff_pairwise, List.pairwise_cons]
    refine ⟨fun C _ => ?_, hsound.2⟩
    unfold blkBefore
    simp
  exact merge_adjacent_chain a.length b.length _ ⟨0, 0, 0⟩ hchain
    (fun B hB => by have := hsound.1 B hB; unfold InWindow at this; omega)
    (by show 0 + 0 ≤ a.length; omega) (by show 0 + 0 ≤ b.length; omega)

lemma ChainEnds_start_le (la lb : Nat) :
    ∀ (l : List Best) (i j : Nat), ChainEnds la lb i j l → i ≤ la ∧ j ≤ lb := by
  intro l
  induction l with
  | nil =>
    intro i j h
    obtain ⟨h1, h2⟩ := h
    omega
  | cons B rest ih =>
    intro i j h
    obtain ⟨h1, h2, h3⟩ := h
    have := ih _ _ h3
    omega

lemma outs_length_eq : ∀ blocks : List Best, (outsA blocks).length = (outsB blocks).length := by
  intro blocks
  induction blocks with
  | nil => rfl
  | cons B rest ih => simp [outsA, outsB] at ih ⊢; omega

lemma outsA_mono (la lb : Nat) :
    ∀ (blocks : List Best) (i j : Nat), ChainEnds la lb i j blocks →
      (outsA blocks).Pairwise (· < ·) ∧ ∀ x ∈ outsA blocks, i ≤ x ∧ x < la := by
  intro blocks
  induction blocks with
  | nil =>
    intro i j h
    exact ⟨List.Pairwise.nil, fun x hx => absurd hx (List.not_mem_nil x)⟩
  | cons B rest ih =>
    intro i j h
    obtain ⟨h1, h2, h3⟩ := h
    have hub := (ChainEnds_start_le la lb rest _ _ h3).1
    have hrest := ih _ _ h3
    have hA : outsA (B :: rest) =
        (List.range B.size).map (fun t => B.i + t) ++ outsA rest := by
      simp [outsA]
    rw [hA]
    constructor
    · rw [List.pairwise_append]
      refine ⟨?_, hrest.1, ?_⟩
      · rw [List.pairwise_map]
        exact (List.pairwise_lt_range B.size).imp (by omega)
      · intro x hx y hy
        rw [List.mem_map] at hx
        obtain ⟨t, ht, rfl⟩ := hx
        rw [List.mem_range] at ht
        have := (hrest.2 y hy).1
        omega
    · intro x hx
      rcases List.mem_append.1 hx with hx | hx
      · rw [List.mem_map] at hx
        obtain ⟨t, ht, rfl⟩ := hx
        rw [List.mem_range] at ht
        omega
      · have := hrest.2 x hx
        omega

lemma outsB_mono (la lb : Nat) :
    ∀ (blocks : List Best) (i j : Nat), ChainEnds la lb i j blocks →
      (outsB blocks).Pairwise (· < ·) ∧ ∀ x ∈ outsB blocks, j ≤ x ∧ x < lb := by
  intro blocks
  induction blocks with
  | nil =>
    intro i j h
    exact ⟨List.Pairwise.nil, fun x hx => absurd hx (List.not_mem_nil x)⟩
  | cons B rest ih =>
    intro i j h
    obtain ⟨h1, h2, h3⟩ := h
    have hub := (ChainEnds_start_le la lb rest _ _ h3).2
    have hrest := ih _ _ h3
    have hB : outsB (B :: rest) =
        (List.range B.size).map (fun t => B.j + t) ++ outsB rest := by
      simp [outsB]
    rw [hB]
    constructor
    · rw [List.pairwise_append]
      refine ⟨?_, hrest.1, ?_⟩
      · rw [List.pairwise_map]
        exact (List.pairwise_lt_range B.size).imp (by omega)
      · intro x hx y hy
        rw [List.mem_map] at hx
        obtain ⟨t, ht, rfl⟩ := hx
        rw [List.mem_range] at ht
        have := (hrest.2 y hy).1
        omega
    · intro x hx
      rcases List.mem_append.1 hx with hx | hx
      · rw [List.mem_map] at hx
        obtain ⟨t, ht, rfl⟩ := hx
        rw [List.mem_range] at ht
        omega
      · have := hrest.2 x hx
        omega

lemma get_opcodes_tile (la lb : Nat) :
    ∀ (blocks : List Best) (i j : Nat), ChainEnds la lb i j blocks →
      tileA i la (get_opcodes_go i j blocks) ∧ tileB j lb (get_opcodes_go i j blocks) := by
  intro blocks
  induction blocks with
  | nil =>
    intro i j h
    obtain ⟨h1, h2⟩ := h
    exact ⟨h1, h2⟩
  | cons B rest ih =>
    intro i j h
    obtain ⟨h1, h2, h3⟩ := h
    have hrec := ih (B.i + B.size) (B.j + B.size) h3
    rw [get_opcodes_go]
    have heq : tileA B.i la ((if B.size ≠ 0 then
          [⟨OpTag.equal, B.i, B.i + B.size, B.j, B.j + B.size⟩] else []) ++
          get_opcodes_go (B.i + B.size) (B.j + B.size) rest) ∧
        tileB B.j lb ((if B.size ≠ 0 then
          [⟨OpTag.equal, B.i, B.i + B.size, B.j, B.j + B.size⟩] else []) ++
          get_opcodes_go (B.i + B.size) (B.j + B.size) rest) := by
      by_cases hsz : B.size ≠ 0
      · rw [if_pos hsz]
        exact ⟨⟨rfl, by show B.i ≤ B.i + B.size; omega, hrec.1⟩,
          ⟨rfl, by show B.j ≤ B.j + B.size; omega, hrec.2⟩⟩
      · rw [if_neg hsz]
        have hz : B.size = 0 := by omega
        simp only [hz, Nat.add_zero, List.nil_append] at hrec ⊢
        exact hrec
    by_cases hg1 : i < B.i ∧ j < B.j
    · rw [if_pos hg1]
      exact ⟨⟨rfl, by show i ≤ B.i; omega, heq.1⟩,
        ⟨rfl, by show j ≤ B.j; omega, heq.2⟩⟩
    · rw [if_neg hg1]
      by_cases hg2 : i < B.i
      · rw [if_pos hg2]
        have hjB : j = B.j := by omega
        subst hjB
        exact ⟨⟨rfl, by show i ≤ B.i; omega, heq.1⟩,
          ⟨rfl, by show B.j ≤ B.j; omega, heq.2⟩⟩
      · rw [if_neg hg2]
        have hiB : i = B.i := by omega
        subst hiB
        by_cases hg3 : j < B.j
        · rw [if_pos hg3]
          exact ⟨⟨rfl, by show B.i ≤ B.i; omega, heq.1⟩,
            ⟨rfl, by show j ≤ B.j; omega, heq.2⟩⟩
        · rw [if_neg hg3]
          have hjB : j = B.j := by omega
          subst hjB
          exact heq

lemma create_convert_length (hom : List (List String)) (l : List String) :
    (create_convert hom l).length = l.length := by
  simp [create_convert]

/-- Claim C8: for every pair of input word lists and every homophone family list, the
aligner result of match_sequence satisfies: the two matched-index lists have equal
length, every index within each list is unique and strictly increasing (expressed as
pairwise strict order, which implies uniqueness), and the edit-script opcodes tile
[0, len list1) and [0, len list2) consecutively with no gaps or overlaps. -/
theorem claim_C8 (list1 list2 : List String) (homophones : List (List String)) :
    (match_sequence list1 list2 homophones).1.length =
      (match_sequence list1 list2 homophones).2.1.length ∧
    (match_sequence list1 list2 homophones).1.Pairwise (· < ·) ∧
    (match_sequence list1 list2 homophones).2.1.Pairwise (· < ·) ∧
    tileA 0 list1.length (match_sequence list1 list2 homophones).2.2 ∧
    tileB 0 list2.length (match_sequence list1 list2 homophones).2.2 := by
  have hce := get_matching_blocks_chainEnds (create_convert homophones list1)
    (create_convert homophones list2) (b2j_fn (create_convert homophones list2))
  rw [create_convert_length, create_convert_length] at hce
  simp only [match_sequence]
  exact ⟨outs_length_eq _,
    (outsA_mono list1.length list2.length _ 0 0 hce).1,
    (outsB_mono list1.length list2.length _ 0 0 hce).1,
    (get_opcodes_tile list1.length list2.length _ 0 0 hce).1,
    (get_opcodes_tile list1.length list2.length _ 0 0 hce).2⟩

/-- Every matched index of the first sequence is an in-range index of that sequence. -/
lemma match_sequence_fst_lt (list1 list2 : List String) (homophones : List (List String)) :
    ∀ x ∈ (match_sequence list1 list2 homophones).1, x < list1.length := by
  have hce := get_matching_blocks_chainEnds (create_convert homophones list1)
    (create_convert homophones list2) (b2j_fn (create_convert homophones list2))
  rw [create_convert_length, create_convert_length] at hce
  intro x hx
  have := (outsA_mono list1.length list2.length _ 0 0 hce).2 x (by
    simpa [match_sequence] using hx)
  exact this.2

/-- Claim C10: calling detect_mispronunciation without a homophones argument (Python
default None) classifies with the English homophone table HOMOPHONES["en"], in both
the transcribe and the airtable versions, for every ground truth and transcript pair
and regardless of the language of the record. -/
theorem claim_C10 (ground_truth transcript : List String) :
    detect_mispronunciation_transcribe ground_truth transcript none =
      detect_mispronunciation_transcribe ground_truth transcript (some HOMOPHONES_en) ∧
    detect_mispronunciation_airtable ground_truth transcript none =
      detect_mispronunciation_airtable ground_truth transcript (some HOMOPHONES_en) :=
  ⟨rfl, rfl⟩

lemma split_space_ne_nil : ∀ cs : List Char, split_space cs ≠ [] := by
  intro cs
  induction cs with
  | nil => simp [split_space]
  | cons c rest ih =>
    rw [split_space]
    by_cases h : c = ' '
    · rw [if_pos h]; simp
    · rw [if_neg h]
      cases hr : split_space rest with
      | nil => simp
      | cons g gs => simp

/-- Claim C4, code evaluation at the failing input: the transcribe version of
detect_mispronunciation raises ValueError (the 2-name unpack of the 3-tuple returned
by match_sequence) on any valid input pair that reaches the aligner — here the
ADDITION row of its own example table — so the classification core does throw for
valid list inputs.  The second conjunct shows the division-by-zero half of the claim:
the ground-truth word list of overlapping_segments is produced by split(" ") and is
never empty (an empty string yields [""]), so the ceil repeat multiplier never divides
by zero; no explicit rejection of an empty ground truth exists in the code. -/
theorem claim_C4 :
    detect_mispronunciation_transcribe ["skel", "is", "a", "skeleton"]
      ["skel", "is", "not", "a", "skeleton"] none = Except.error valueUnpackMsg ∧
    ∀ ground_truth : String, (gt_words ground_truth).length ≠ 0 := by
  refine ⟨rfl, fun ground_truth h => ?_⟩
  apply split_space_ne_nil ((py_replace_dash (py_strip (py_lower ground_truth))).toList)
  have h2 : (py_split_space (py_replace_dash (py_strip (py_lower ground_truth)))).length = 0 := h
  rwa [py_split_space, List.length_map, List.length_eq_zero] at h2

theorem claim_C4_witness : (gt_words noWord).length ≠ 0 := claim_C4.2 noWord

/-- Claim C3: remove_fillers recognizes exactly the eight filler tokens
"", uh, huh, mm, yeah, mhm, hmm, hm; the classifier filters them from the transcript
only, leaving the ground truth untouched; and the transcribe classifier returns the
None verdict exactly when the unfiltered ground truth has exactly one word or the
filler-filtered transcript is empty.  The exactness also shows the aligner is not run
on that early path: past it, the match_sequence unpacking produces an error, never
ok none. -/
theorem claim_C3 :
    (∀ word : String, remove_fillers word = false ↔ word ∈ fillers) ∧
    ∀ (ground_truth transcript : List String) (homophones : Option (List (List String))),
      detect_mispronunciation_transcribe ground_truth transcript homophones =
        Except.ok none ↔
      (ground_truth.length = 1 ∨ (transcript.filter remove_fillers).length = 0) := by
  constructor
  · intro word
    simp [remove_fillers]
  · intro ground_truth transcript homophones
    have hu : ∀ (a b : List String) (c : List (List String)),
        unpack2 (match_sequence_tuple a b c) = Except.error valueUnpackMsg :=
      fun a b c => rfl
    rw [detect_mispronunciation_transcribe]
    by_cases hc : ground_truth.length = 1 ∨ (transcript.filter remove_fillers).length = 0
    · rw [if_pos hc]
      exact iff_of_true rfl hc
    · rw [if_neg hc, hu]
      constructor
      · intro h
        exact absurd h (by simp)
      · intro h
        exact absurd h hc

theorem claim_C3_witness :
    detect_mispronunciation_transcribe ["skel"] ["skel", "is", "uh"] none = Except.ok none :=
  (claim_C3.2 ["skel"] ["skel", "is", "uh"] none).mpr (Or.inl rfl)

/-- Claim C5 amended: for every language code without a HOMOPHONES entry,
overlapping_segments passes homophones = None into match_sequence, where
create_convert(*None) raises TypeError: an unknown language code is an error, not
no-equivalence matching. -/
theorem claim_C5_amended (results : List TranscriptItem) (ground_truth language : String)
    (max_repeats : Option Nat) (h : HOMOPHONES language = none) :
    overlapping_segments results ground_truth language max_repeats =
      Except.error typeErrorStarMsg := by
  simp only [overlapping_segments, h]

/-- Claim C5 counterexample: for the unknown language code "xx", segmentation of a
well-formed one-item transcript raises the modelled TypeError instead of aligning
with plain string equality as the claim states. -/
theorem claim_C5_counterexample :
    overlapping_segments [⟨strPronunciation, strMasa, some 0, some 1⟩] strMasa strXX none =
      Except.error typeErrorStarMsg := by
  rfl

theorem claim_C5_witness :
    overlapping_segments [] noWord strXX none = Except.error typeErrorStarMsg :=
  claim_C5_amended [] noWord strXX none rfl

/-- Claim C9 counterexample: the English homophone families are not pairwise disjoint:
the word "more" belongs both to the family listed as (maw, more) and to the family
listed as (moor, more). -/
theorem claim_C9_counterexample :
    ¬ List.Pairwise (fun f g => ∀ w ∈ f, w ∉ g) HOMOPHONES_en := by
  intro h
  have h2 := List.pairwise_iff_get.1 h
  have h3 := h2 ⟨252, by decide⟩ ⟨265, by decide⟩ (by decide)
  exact h3 strMore (by decide) (by decide)

/-- Claim C9 amended: the "id" families are pairwise disjoint, but the "en" families
are not: "more" belongs to the two distinct families (maw, more) and (moor, more). -/
theorem claim_C9_amended :
    List.Pairwise (fun f g => ∀ w ∈ f, w ∉ g) HOMOPHONES_id ∧
    (["maw", "more"] ∈ HOMOPHONES_en ∧ ["moor", "more"] ∈ HOMOPHONES_en ∧
      strMore ∈ (["maw", "more"] : List String) ∧
      strMore ∈ (["moor", "more"] : List String) ∧
      (["maw", "more"] : List String) ≠ ["moor", "more"]) := by
  exact ⟨by decide, by decide, by decide, by decide, by decide, by decide⟩

/-- Claim C1 counterexample: for ground truth ["aa", "bb"] and transcript
["cc", "dd"] the alignment finds no match at all, both residue index sets are the
full nonempty set and in particular identical, yet the classifier answers its null
verdict DELETE through the zero-match early return, not SUBSTITUTION as the claim
requires for identical residue sets. -/
theorem claim_C1_counterexample :
    (residues ["aa", "bb"] ["cc", "dd"] none).1 =
      (residues ["aa", "bb"] ["cc", "dd"] none).2 ∧
    (residues ["aa", "bb"] ["cc", "dd"] none).1 ≠ ∅ ∧
    (residues ["aa", "bb"] ["cc", "dd"] none).2 ≠ ∅ ∧
    detect_mispronunciation_airtable ["aa", "bb"] ["cc", "dd"] none = strDELETE ∧
    strDELETE ≠ strSUBSTITUTION := by
  exact ⟨by decide, by decide, by decide, by decide, by decide⟩

/-- Claim C1 amended: for every ground truth of at least two words and nonempty
transcript, provided the alignment matched at least one index (the zero-match early
return of the code fires otherwise, yielding the null verdict even for identical
residue sets), a classifier run with both residues nonempty answers: SUBSTITUTION
exactly when the two residue index sets are identical (equal size and identical as
sets); otherwise ADDITION_SUBSTITUTION exactly when the transcript residue is at
least as large as the ground-truth residue; otherwise the null verdict DELETE. -/
theorem claim_C1_amended (ground_truth transcript : List String)
    (homophones : Option (List (List String)))
    (hlen : 2 ≤ ground_truth.length) (htsc : transcript.length ≠ 0)
    (hmatch : ¬ ((match_sequence transcript ground_truth
          (homophones.getD HOMOPHONES_en)).1.length = 0 ∧
        (match_sequence transcript ground_truth
          (homophones.getD HOMOPHONES_en)).2.1.length = 0))
    (htd : (residues ground_truth transcript homophones).1 ≠ ∅)
    (hgd : (residues ground_truth transcript homophones).2 ≠ ∅) :
    (detect_mispronunciation_airtable ground_truth transcript homophones =
        strSUBSTITUTION ↔
      (residues ground_truth transcript homophones).1 =
        (residues ground_truth transcript homophones).2) ∧
    ((residues ground_truth transcript homophones).1 ≠
        (residues ground_truth transcript homophones).2 →
      ((detect_mispronunciation_airtable ground_truth transcript homophones =
          strADDSUB ↔
        (residues ground_truth transcript homophones).2.card ≤
          (residues ground_truth transcript homophones).1.card) ∧
       ((residues ground_truth transcript homophones).1.card <
          (residues ground_truth transcript homophones).2.card →
        detect_mispronunciation_airtable ground_truth transcript homophones =
          strDELETE))) := by
  have hone : ¬ (ground_truth.length = 1 ∨ transcript.length = 0) := by omega
  simp only [residues] at htd hgd ⊢
  simp only [detect_mispronunciation_airtable]
  rw [if_neg hone, if_neg hmatch]
  set td := (Finset.range transcript.length).filter
    (fun idx => idx ∉ (match_sequence transcript ground_truth
      (homophones.getD HOMOPHONES_en)).1) with htd_def
  set gd := (Finset.range ground_truth.length).filter
    (fun idx => idx ∉ (match_sequence transcript ground_truth
      (homophones.getD HOMOPHONES_en)).2.1) with hgd_def
  have hc1 : td.card ≠ 0 := by rwa [Ne, Finset.card_eq_zero]
  have hc2 : gd.card ≠ 0 := by rwa [Ne, Finset.card_eq_zero]
  rw [if_neg (fun h => hc1 h.2), if_neg (fun h => hc1 h.2), if_neg (fun h => hc2 h.1)]
  by_cases heq : td = gd
  · rw [if_pos ⟨by rw [heq], heq⟩]
    exact ⟨iff_of_true rfl heq, fun hne => absurd heq hne⟩
  · rw [if_neg (fun h => heq h.2)]
    by_cases hle : gd.card ≤ td.card
    · rw [if_pos hle]
      exact ⟨iff_of_false (by decide) heq,
        fun _ => ⟨iff_of_true rfl hle, fun hlt => by omega⟩⟩
    · rw [if_neg hle]
      exact ⟨iff_of_false (by decide) heq,
        fun _ => ⟨iff_of_false (by decide) hle, fun _ => rfl⟩⟩

theorem claim_C1_witness :
    (detect_mispronunciation_airtable ["aa", "bb", "cc"] ["aa", "dd"] none =
        strSUBSTITUTION ↔
      (residues ["aa", "bb", "cc"] ["aa", "dd"] none).1 =
        (residues ["aa", "bb", "cc"] ["aa", "dd"] none).2) ∧
    ((residues ["aa", "bb", "cc"] ["aa", "dd"] none).1 ≠
        (residues ["aa", "bb", "cc"] ["aa", "dd"] none).2 →
      ((detect_mispronunciation_airtable ["aa", "bb", "cc"] ["aa", "dd"] none =
          strADDSUB ↔
        (residues ["aa", "bb", "cc"] ["aa", "dd"] none).2.card ≤
          (residues ["aa", "bb", "cc"] ["aa", "dd"] none).1.card) ∧
       ((residues ["aa", "bb", "cc"] ["aa", "dd"] none).1.card <
          (residues ["aa", "bb", "cc"] ["aa", "dd"] none).2.card →
        detect_mispronunciation_airtable ["aa", "bb", "cc"] ["aa", "dd"] none =
          strDELETE))) :=
  claim_C1_amended ["aa", "bb", "cc"] ["aa", "dd"] none (by decide) (by decide)
    (by decide) (by decide) (by decide)

lemma emit_runs_textsAgree (results : List TranscriptItem) (transcripts : List String) :
    ∀ (runs : List (List Nat)) (counter : Nat) (out : List LSEntry),
      emit_runs results transcripts counter runs = Except.ok out →
      tripleTextsAgree out = true := by
  intro runs
  induction runs with
  | nil =>
    intro counter out h
    rw [emit_runs] at h
    cases h
    rfl
  | cons run rest ih =>
    intro counter out h
    rw [emit_runs] at h
    split at h
    · exact ih _ _ h
    · split at h
      · exact absurd h (by simp)
      · split at h
        · exact absurd h (by simp)
        · rename_i tl htl
          cases h
          have hrest := ih _ _ htl
          simp [tripleTextsAgree, entry_triple, hrest]

/-- Claim C6 amended: in every emitted segment, the region-ground-truth text entry
carries exactly the same text as the transcription entry, namely the space-joined
transcript tokens of the run — not the slice of the (repeated) ground-truth word
list, which the code never writes into the output (aligner.py lines 186-189). -/
theorem claim_C6_amended (results : List TranscriptItem) (ground_truth language : String)
    (max_repeats : Option Nat) (out : List LSEntry)
    (h : overlapping_segments results ground_truth language max_repeats = Except.ok out) :
    tripleTextsAgree out = true := by
  simp only [overlapping_segments] at h
  split at h
  · exact absurd h (by simp)
  · exact emit_runs_textsAgree _ _ _ _ _ h

/-- Claim C6 counterexample: segmenting the one-item transcript "massa" against the
ground truth "masa" in language "id" aligns the single transcript token to
ground-truth index 0 (the word "masa", a homophone of "massa"), yet the emitted
region-ground-truth entry carries the transcript text ["massa"], not the aligned
ground-truth slice ["masa"]. -/
theorem claim_C6_counterexample :
    ((overlapping_segments [⟨strPronunciation, strMassa, some 0, some 1⟩]
        strMasa strId none).toOption.getD []).map (fun e => (e.from_name, e.text)) =
      [(strTranscription, [strMassa]), (strLabels, ([] : List String)),
       (strRegionGT, [strMassa])] ∧
    gt_words strMasa = [strMasa] ∧
    (match_sequence [strMassa] [strMasa] HOMOPHONES_id).2.1 = [0] ∧
    strMassa ≠ strMasa := by
  exact ⟨by decide, by decide, by decide, by decide⟩

theorem claim_C6_witness :
    tripleTextsAgree
      [⟨0, 1, [strMassa], [], strSentence0, strTranscription, strAudio, strTextarea⟩,
       ⟨0, 1, [], [strSentence], strSentence0, strLabels, strAudio, strLabels⟩,
       ⟨0, 1, [strMassa], [], strSentence0, strRegionGT, strAudio, strTextarea⟩] = true :=
  claim_C6_amended [⟨strPronunciation, strMassa, some 0, some 1⟩] strMasa strId none
    [⟨0, 1, [strMassa], [], strSentence0, strTranscription, strAudio, strTextarea⟩,
     ⟨0, 1, [], [strSentence], strSentence0, strLabels, strAudio, strLabels⟩,
     ⟨0, 1, [strMassa], [], strSentence0, strRegionGT, strAudio, strTextarea⟩]
    (by rfl)

lemma group_consecutive_flatten : ∀ l : List Nat, (group_consecutive l).flatten = l := by
  intro l
  induction l with
  | nil => rfl
  | cons x xs ih =>
    rw [group_consecutive]
    split
    · rename_i hg
      rw [hg] at ih
      simp at ih
      simp [ih]
    · rename_i run rest hg
      rw [hg] at ih
      split
      · simp at ih ⊢
        exact ih
      · rename_i y rr
        by_cases hy : y = x + 1
        · rw [if_pos hy]
          simp at ih ⊢
          exact ih
        · rw [if_neg hy]
          simp at ih ⊢
          exact ih

lemma group_consecutive_ne_nil : ∀ l : List Nat, ∀ r ∈ group_consecutive l, r ≠ [] := by
  intro l
  induction l with
  | nil => intro r hr; simp [group_consecutive] at hr
  | cons x xs ih =>
    intro r
    rw [group_consecutive]
    split
    · rename_i hg
      intro hr
      simp at hr
      simp [hr]
    · rename_i run rest hg
      split
      · intro hr
        rcases List.mem_cons.1 hr with rfl | hr
        · simp
        · exact ih r (by rw [hg]; exact List.mem_cons_of_mem _ hr)
      · rename_i y rr
        by_cases hy : y = x + 1
        · rw [if_pos hy]
          intro hr
          rcases List.mem_cons.1 hr with rfl | hr
          · simp
          · exact ih r (by rw [hg]; exact List.mem_cons_of_mem _ hr)
        · rw [if_neg hy]
          intro hr
          rcases List.mem_cons.1 hr with rfl | hr
          · simp
          · exact ih r (by rw [hg]; exact hr)

lemma group_consecutive_chain : ∀ l : List Nat, ∀ r ∈ group_consecutive l,
    List.Chain' (fun a b => b = a + 1) r := by
  intro l
  induction l with
  | nil => intro r hr; simp [group_consecutive] at hr
  | cons x xs ih =>
    intro r
    rw [group_consecutive]
    split
    · rename_i hg
      intro hr
      simp at hr
      simp [hr]
    · rename_i run rest hg
      split
      · intro hr
        rcases List.mem_cons.1 hr with rfl | hr
        · simp
        · exact ih r (by rw [hg]; exact List.mem_cons_of_mem _ hr)
      · rename_i y rr
        by_cases hy : y = x + 1
        · rw [if_pos hy]
          intro hr
          rcases List.mem_cons.1 hr with rfl | hr
          · rw [List.chain'_cons]
            exact ⟨hy, ih (y :: rr) (by rw [hg]; exact List.mem_cons_self _ _)⟩
          · exact ih r (by rw [hg]; exact List.mem_cons_of_mem _ hr)
        · rw [if_neg hy]
          intro hr
          rcases List.mem_cons.1 hr with rfl | hr
          · simp
          · exact ih r (by rw [hg]; exact hr)

lemma group_consecutive_pairwise (l : List Nat) (h : l.Pairwise (· < ·)) :
    (group_consecutive l).Pairwise (fun r s => ∀ x ∈ r, ∀ y ∈ s, x < y) := by
  have h2 : (group_consecutive l).flatten.Pairwise (· < ·) := by
    rw [group_consecutive_flatten]
    exact h
  exact (List.pairwise_flatten.1 h2).2

lemma match_sequence_fst_pairwise (list1 list2 : List String)
    (homophones : List (List String)) :
    (match_sequence list1 list2 homophones).1.Pairwise (· < ·) := by
  have hce := get_matching_blocks_chainEnds (create_convert homophones list1)
    (create_convert homophones list2) (b2j_fn (create_convert homophones list2))
  have h2 := (outsA_mono (create_convert homophones list1).length
    (create_convert homophones list2).length _ 0 0 hce).1
  simpa [match_sequence] using h2

lemma filterMap_start_lt (results : List TranscriptItem)
    (h : (results.filterMap (fun it => it.start_time)).Pairwise (· < ·)) :
    ∀ i j a b, i < j → j < results.length →
      (results.getD i dummyItem).start_time = some a →
      (results.getD j dummyItem).start_time = some b → a < b := by
  induction results with
  | nil =>
    intro i j a b h1 h2 h3 h4
    simp at h2
  | cons it rest ih =>
    intro i j a b hij hj hia hjb
    rw [List.filterMap_cons] at h
    cases j with
    | zero => omega
    | succ j =>
      have hjb2 : (rest.getD j dummyItem).start_time = some b := hjb
      have hjlen : j < rest.length := by simpa using hj
      cases i with
      | zero =>
        have hia2 : it.start_time = some a := hia
        rw [hia2] at h
        rw [List.pairwise_cons] at h
        apply h.1
        rw [List.mem_filterMap]
        refine ⟨rest.getD j dummyItem, ?_, hjb2⟩
        rw [List.getD_eq_getElem rest dummyItem hjlen]
        exact List.getElem_mem hjlen
      | succ i =>
        have htail : (rest.filterMap (fun it => it.start_time)).Pairwise (· < ·) := by
          cases hst : it.start_time with
          | none => rwa [hst] at h
          | some v =>
            rw [hst, List.pairwise_cons] at h
            exact h.2
        exact ih htail i j a b (by omega) hjlen hia hjb2

lemma emit_runs_starts (results : List TranscriptItem) (transcripts : List String) :
    ∀ (runs : List (List Nat)) (counter : Nat) (out : List LSEntry),
      emit_runs results transcripts counter runs = Except.ok out →
      transcriptionStarts out = runs.filterMap
        (fun run => (results.getD (run.headD 0) dummyItem).start_time) := by
  intro runs
  induction runs with
  | nil =>
    intro counter out h
    rw [emit_runs] at h
    cases h
    rfl
  | cons run rest ih =>
    intro counter out h
    rw [emit_runs] at h
    rw [List.filterMap_cons]
    split at h
    · rename_i hst
      rw [hst]
      exact ih _ _ h
    · rename_i st hst
      rw [hst]
      split at h
      · exact absurd h (by simp)
      · split at h
        · exact absurd h (by simp)
        · rename_i tl htl
          cases h
          have hrest := ih _ _ htl
          simp [transcriptionStarts, entry_triple, List.filterMap_cons, strLabels,
            strTranscription, strRegionGT] at hrest ⊢
          exact hrest

/-- Claim C7 amended: whenever the pronunciation start times are strictly increasing
in transcript order (the claim as frozen only assumes non-decreasing, which the
counterexample below refutes), the runs of overlapping_segments use only matched
transcript indices, each run is a nonempty block of consecutive indices, distinct
runs are completely ordered (hence the index ranges are pairwise disjoint), and the
emitted segments carry strictly increasing start times. -/
theorem claim_C7_amended (results : List TranscriptItem) (ground_truth language : String)
    (max_repeats : Option Nat) (homophones : List (List String)) (out : List LSEntry)
    (hlang : HOMOPHONES language = some homophones)
    (hstrict : (results.filterMap (fun it => it.start_time)).Pairwise (· < ·))
    (hok : overlapping_segments results ground_truth language max_repeats = Except.ok out) :
    (∀ run ∈ group_consecutive (aligned_of results ground_truth max_repeats homophones),
      run ≠ [] ∧ List.Chain' (fun a b => b = a + 1) run ∧
      ∀ x ∈ run, x ∈ aligned_of results ground_truth max_repeats homophones) ∧
    (group_consecutive (aligned_of results ground_truth max_repeats homophones)).Pairwise
      (fun r s => ∀ x ∈ r, ∀ y ∈ s, x < y) ∧
    (transcriptionStarts out).Pairwise (· < ·) := by
  have hal : (aligned_of results ground_truth max_repeats homophones).Pairwise (· < ·) :=
    match_sequence_fst_pairwise _ _ _
  have hlt : ∀ x ∈ aligned_of results ground_truth max_repeats homophones,
      x < results.length := by
    intro x hx
    have h2 := match_sequence_fst_lt (aligner_transcripts results)
      (List.replicate (repeat_multiplier results ground_truth max_repeats)
        (gt_words ground_truth)).flatten homophones x hx
    simpa [aligner_transcripts] using h2
  have hmemflat : ∀ run ∈ group_consecutive
      (aligned_of results ground_truth max_repeats homophones), ∀ x ∈ run,
      x ∈ aligned_of results ground_truth max_repeats homophones := by
    intro run hrun x hx
    rw [← group_consecutive_flatten (aligned_of results ground_truth max_repeats homophones)]
    exact List.mem_flatten.2 ⟨run, hrun, hx⟩
  have hheadmem : ∀ r : List Nat, r ≠ [] → r.headD 0 ∈ r := by
    intro r hr
    cases r with
    | nil => exact absurd rfl hr
    | cons a t => exact List.mem_cons_self a t
  refine ⟨?_, group_consecutive_pairwise _ hal, ?_⟩
  · intro run hrun
    exact ⟨group_consecutive_ne_nil _ run hrun, group_consecutive_chain _ run hrun,
      hmemflat run hrun⟩
  · simp only [overlapping_segments, hlang] at hok
    have hstarts := emit_runs_starts results (aligner_transcripts results) _ 0 out hok
    rw [hstarts, List.pairwise_filterMap]
    refine List.Pairwise.imp_of_mem ?_ (group_consecutive_pairwise _ hal)
    intro r s hr hs hxy b hb b' hb'
    rw [Option.mem_def] at hb hb'
    have hrne := group_consecutive_ne_nil _ r hr
    have hsne := group_consecutive_ne_nil _ s hs
    apply filterMap_start_lt results hstrict (r.headD 0) (s.headD 0) b b'
    · exact hxy (r.headD 0) (hheadmem r hrne) (s.headD 0) (hheadmem s hsne)
    · exact hlt (s.headD 0) (hmemflat s hs (s.headD 0) (hheadmem s hsne))
    · exact hb
    · exact hb'

/-- Claim C7 counterexample: three pronunciation items with equal (hence
non-decreasing) start times produce two emitted segments whose start times are 0 and
0 — not strictly increasing, refuting the claim under its non-decreasing hypothesis. -/
theorem claim_C7_counterexample :
    ([⟨strPronunciation, strMasa, some 0, some 1⟩,
      ⟨strPronunciation, strXyz, some 0, some 1⟩,
      ⟨strPronunciation, strRok, some 0, some 1⟩] : List TranscriptItem).filterMap
        (fun it => it.start_time) = [0, 0, 0] ∧
    List.Pairwise (· ≤ ·) ([0, 0, 0] : List Rat) ∧
    transcriptionStarts ((overlapping_segments
      [⟨strPronunciation, strMasa, some 0, some 1⟩,
       ⟨strPronunciation, strXyz, some 0, some 1⟩,
       ⟨strPronunciation, strRok, some 0, some 1⟩] strMasaRok strId none).toOption.getD [])
      = [0, 0] ∧
    ¬ List.Pairwise (· < ·) ([0, 0] : List Rat) := by
  exact ⟨by decide, by decide, by decide, by decide⟩

theorem claim_C7_witness :
    (∀ run ∈ group_consecutive (aligned_of [⟨strPronunciation, strMasa, some 0, some 1⟩]
        strMasa none HOMOPHONES_id),
      run ≠ [] ∧ List.Chain' (fun a b => b = a + 1) run ∧
      ∀ x ∈ run, x ∈ aligned_of [⟨strPronunciation, strMasa, some 0, some 1⟩]
        strMasa none HOMOPHONES_id) ∧
    (group_consecutive (aligned_of [⟨strPronunciation, strMasa, some 0, some 1⟩]
        strMasa none HOMOPHONES_id)).Pairwise (fun r s => ∀ x ∈ r, ∀ y ∈ s, x < y) ∧
    (transcriptionStarts
      [⟨0, 1, [strMasa], [], strSentence0, strTranscription, strAudio, strTextarea⟩,
       ⟨0, 1, [], [strSentence], strSentence0, strLabels, strAudio, strLabels⟩,
       ⟨0, 1, [strMasa], [], strSentence0, strRegionGT, strAudio, strTextarea⟩]).Pairwise
      (· < ·) :=
  claim_C7_amended [⟨strPronunciation, strMasa, some 0, some 1⟩] strMasa strId none
    HOMOPHONES_id
    [⟨0, 1, [strMasa], [], strSentence0, strTranscription, strAudio, strTextarea⟩,
     ⟨0, 1, [], [strSentence], strSentence0, strLabels, strAudio, strLabels⟩,
     ⟨0, 1, [strMasa], [], strSentence0, strRegionGT, strAudio, strTextarea⟩]
    rfl (by decide) (by rfl)

lemma wr_eq_zero (a : List String) (bj : String → List Nat) (alo ahi j : Nat)
    (h : ¬ (alo ≤ j ∧ j < ahi ∧ j ∈ bj (a.getD j noWord))) :
    wr a bj alo ahi j = 0 := by
  cases j with
  | zero => rw [wr, if_neg h]
  | succ j => rw [wr, if_neg h]

lemma wr_succ (a : List String) (bj : String → List Nat) (alo ahi j : Nat)
    (h1 : alo ≤ j + 1) (h2 : j + 1 < ahi) (h3 : j + 1 ∈ bj (a.getD (j + 1) noWord)) :
    wr a bj alo ahi (j + 1) = wr a bj alo ahi j + 1 := by
  rw [wr, if_pos ⟨h1, h2, h3⟩]

lemma wr_base (a : List String) (bj : String → List Nat) (alo ahi : Nat)
    (h1 : alo ≤ 0) (h2 : 0 < ahi) (h3 : 0 ∈ bj (a.getD 0 noWord)) :
    wr a bj alo ahi 0 = 1 := by
  rw [wr, if_pos ⟨h1, h2, h3⟩]

lemma b2j_fn_mem (b : List String) (w : String) (j : Nat) (h : j ∈ b2j_fn b w) :
    b.getD j noWord = w ∧ j < b.length := by
  unfold b2j_fn at h
  by_cases hc : 200 ≤ b.length ∧ b.length / 100 + 1 < b.count w
  · rw [if_pos hc] at h
    exact absurd h (List.not_mem_nil j)
  · rw [if_neg hc, List.mem_filter] at h
    exact ⟨by simpa using h.2, by simpa using h.1⟩

lemma b2j_fn_self (b : List String) (i : Nat) (hi : i < b.length) :
    b2j_fn b (b.getD i noWord) = [] ∨ i ∈ b2j_fn b (b.getD i noWord) := by
  by_cases hc : 200 ≤ b.length ∧ b.length / 100 + 1 < b.count (b.getD i noWord)
  · left
    unfold b2j_fn
    rw [if_pos hc]
  · right
    unfold b2j_fn
    rw [if_neg hc, List.mem_filter]
    exact ⟨List.mem_range.2 hi, by simp⟩

lemma b2j_fn_sorted (b : List String) (w : String) : (b2j_fn b w).Pairwise (· < ·) := by
  unfold b2j_fn
  by_cases hc : 200 ≤ b.length ∧ b.length / 100 + 1 < b.count w
  · rw [if_pos hc]
    exact List.Pairwise.nil
  · rw [if_neg hc]
    exact (List.pairwise_lt_range _).filter _

/-- Inner-loop invariant of the find_longest_match dynamic program in the symmetric
case a = b: while processing the (sorted) candidate list for row i, every j2len entry
stays below the diagonal run wr, the entry at j = i receives exactly the diagonal
value, and the best block stays on the diagonal with size at least every completed
diagonal run. -/
lemma smRowSymInv (a : List String) (bj : String → List Nat) (alo ahi i pv : Nat)
    (hB1 : ∀ w j, j ∈ bj w → a.getD j noWord = w ∧ j < a.length)
    (hi1 : alo ≤ i) (hi2 : i < ahi)
    (hcI : bj (a.getD i noWord) = [] ∨ i ∈ bj (a.getD i noWord))
    (f : Nat → Nat)
    (hf1 : ∀ j, f j ≤ wr a bj alo ahi j)
    (hf2 : ∀ j, i ≤ j → f j ≤ pv)
    (hpv2 : i ∈ bj (a.getD i noWord) → wr a bj alo ahi i = pv + 1)
    (hpv0 : i = 0 → pv = 0)
    (hpvd : i ≠ 0 → f (i - 1) = pv) :
    ∀ (rem : List Nat) (new : Nat → Nat) (best : Best),
      rem.Pairwise (· < ·) →
      (∀ j, j ∈ rem → j ∈ bj (a.getD i noWord)) →
      (∀ j, new j ≤ wr a bj alo ahi j) →
      (∀ j, i ≤ j → new j ≤ wr a bj alo ahi i) →
      ((i ∈ rem ∧ new i = 0) ∨
        (new i = wr a bj alo ahi i ∧ wr a bj alo ahi i ≤ best.size)) →
      (∀ j, j < i → wr a bj alo ahi j ≤ best.size) →
      best.i = best.j →
      (∀ j, (smRow i alo ahi f rem new best).1 j ≤ wr a bj alo ahi j) ∧
      (∀ j, i ≤ j → (smRow i alo ahi f rem new best).1 j ≤ wr a bj alo ahi i) ∧
      (smRow i alo ahi f rem new best).1 i = wr a bj alo ahi i ∧
      wr a bj alo ahi i ≤ (smRow i alo ahi f rem new best).2.size ∧
      (∀ j, j < i → wr a bj alo ahi j ≤ (smRow i alo ahi f rem new best).2.size) ∧
      (smRow i alo ahi f rem new best).2.i = (smRow i alo ahi f rem new best).2.j := by
  intro rem
  induction rem with
  | nil =>
    intro new best _ _ h1 h2 htr h4 h5
    rw [smRow]
    rcases htr with ⟨hmem, _⟩ | ⟨ha, hb⟩
    · exact absurd hmem (List.not_mem_nil i)
    · exact ⟨h1, h2, ha, hb, h4, h5⟩
  | cons j js ih =>
    intro new best hsort hsub h1 h2 htr h4 h5
    have hsort' := hsort.of_cons
    have hsub' : ∀ j2, j2 ∈ js → j2 ∈ bj (a.getD i noWord) := fun j2 h =>
      hsub j2 (List.mem_cons_of_mem j h)
    by_cases hjlo : j < alo
    · rw [smRow, if_pos hjlo]
      refine ih new best hsort' hsub' h1 h2 ?_ h4 h5
      rcases htr with ⟨hmem, hz⟩ | hdone
      · left
        refine ⟨?_, hz⟩
        rcases List.mem_cons.1 hmem with hij | h
        · omega
        · exact h
      · right
        exact hdone
    · by_cases hjhi : ahi ≤ j
      · rw [smRow, if_neg hjlo, if_pos hjhi]
        rcases htr with ⟨hmem, _⟩ | ⟨ha, hb⟩
        · exfalso
          rcases List.mem_cons.1 hmem with hij | h
          · omega
          · have := List.rel_of_pairwise_cons hsort h
            omega
        · exact ⟨h1, h2, ha, hb, h4, h5⟩
      · have hstep : smRow i alo ahi f (j :: js) new best =
            smRow i alo ahi f js
              (Function.update new j ((if j = 0 then 0 else f (j - 1)) + 1))
              (if best.size < (if j = 0 then 0 else f (j - 1)) + 1 then
                ⟨i + 1 - ((if j = 0 then 0 else f (j - 1)) + 1),
                 j + 1 - ((if j = 0 then 0 else f (j - 1)) + 1),
                 (if j = 0 then 0 else f (j - 1)) + 1⟩
              else best) := by
          rw [smRow, if_neg hjlo, if_neg hjhi]
        rw [hstep]
        have hjmem : j ∈ bj (a.getD i noWord) := hsub j (List.mem_cons_self j js)
        have hji := hB1 (a.getD i noWord) j hjmem
        have hcj : j ∈ bj (a.getD j noWord) := by
          rw [hji.1]
          exact hjmem
        have hci : i ∈ bj (a.getD i noWord) := by
          rcases hcI with hnil | hmem2
          · rw [hnil] at hjmem
            exact absurd hjmem (List.not_mem_nil j)
          · exact hmem2
        have hwi : wr a bj alo ahi i = pv + 1 := hpv2 hci
        have hkj : (if j = 0 then 0 else f (j - 1)) + 1 ≤ wr a bj alo ahi j := by
          by_cases hz : j = 0
          · subst hz
            rw [if_pos rfl, wr_base a bj alo ahi (by omega) (by omega) hcj]
          · obtain ⟨jp, rfl⟩ : ∃ jp, j = jp + 1 := ⟨j - 1, by omega⟩
            rw [if_neg hz, wr_succ a bj alo ahi jp (by omega) (by omega) hcj]
            have hb1 := hf1 jp
            simp only [Nat.add_sub_cancel]
            omega
        rcases Nat.lt_trichotomy j i with hlt | heq | hgt
        · -- j < i: the written value is at most wr j ≤ best.size, so no best update
          have hnoup : ¬ best.size < (if j = 0 then 0 else f (j - 1)) + 1 := by
            have := h4 j hlt
            omega
          rw [if_neg hnoup]
          refine ih _ best hsort' hsub' ?_ ?_ ?_ h4 h5
          · intro j2
            by_cases hjj : j2 = j
            · subst hjj
              rw [Function.update_same]
              exact hkj
            · rw [Function.update_noteq hjj]
              exact h1 j2
          · intro j2 hj2
            have hjj : j2 ≠ j := by omega
            rw [Function.update_noteq hjj]
            exact h2 j2 hj2
          · rcases htr with ⟨hmem, hz⟩ | ⟨ha, hb⟩
            · left
              refine ⟨?_, ?_⟩
              · rcases List.mem_cons.1 hmem with hij | h
                · omega
                · exact h
              · rw [Function.update_noteq (by omega : i ≠ j)]
                exact hz
            · right
              refine ⟨?_, hb⟩
              rw [Function.update_noteq (by omega : i ≠ j)]
              exact ha
        · -- j = i: the diagonal write is exactly wr i
          have hkeq : (if j = 0 then 0 else f (j - 1)) + 1 = wr a bj alo ahi i := by
            rw [hwi, heq]
            by_cases hz : i = 0
            · rw [if_pos hz, hpv0 hz]
            · rw [if_neg hz, hpvd hz]
          have hnew1 : ∀ j2,
              Function.update new j ((if j = 0 then 0 else f (j - 1)) + 1) j2 ≤
                wr a bj alo ahi j2 := by
            intro j2
            by_cases hjj : j2 = j
            · subst hjj
              rw [Function.update_same]
              exact hkj
            · rw [Function.update_noteq hjj]
              exact h1 j2
          have hnew2 : ∀ j2, i ≤ j2 →
              Function.update new j ((if j = 0 then 0 else f (j - 1)) + 1) j2 ≤
                wr a bj alo ahi i := by
            intro j2 hj2
            by_cases hjj : j2 = j
            · subst hjj
              rw [Function.update_same, hkeq]
            · rw [Function.update_noteq hjj]
              exact h2 j2 hj2
          have hnewi : Function.update new j ((if j = 0 then 0 else f (j - 1)) + 1) i =
              wr a bj alo ahi i := by
            rw [heq] at hkeq ⊢
            rw [Function.update_same]
            exact hkeq
          by_cases hup : best.size < (if j = 0 then 0 else f (j - 1)) + 1
          · rw [if_pos hup]
            refine ih _ _ hsort' hsub' hnew1 hnew2 ?_ ?_ ?_
            · right
              refine ⟨hnewi, ?_⟩
              show wr a bj alo ahi i ≤ (if j = 0 then 0 else f (j - 1)) + 1
              omega
            · intro j2 hj2
              have := h4 j2 hj2
              show wr a bj alo ahi j2 ≤ (if j = 0 then 0 else f (j - 1)) + 1
              omega
            · show i + 1 - ((if j = 0 then 0 else f (j - 1)) + 1) =
                j + 1 - ((if j = 0 then 0 else f (j - 1)) + 1)
              rw [heq]
          · rw [if_neg hup]
            refine ih _ best hsort' hsub' hnew1 hnew2 ?_ h4 h5
            right
            exact ⟨hnewi, by omega⟩
        · -- i < j: the written value is at most wr i ≤ best.size, so no best update
          have hjne : j ≠ 0 := by omega
          have hkle : (if j = 0 then 0 else f (j - 1)) + 1 ≤ wr a bj alo ahi i := by
            rw [if_neg hjne, hwi]
            have := hf2 (j - 1) (by omega)
            omega
          have hdone : new i = wr a bj alo ahi i ∧ wr a bj alo ahi i ≤ best.size := by
            rcases htr with ⟨hmem, _⟩ | hd
            · exfalso
              rcases List.mem_cons.1 hmem with hij | h
              · omega
              · have := List.rel_of_pairwise_cons hsort h
                omega
            · exact hd
          have hnoup : ¬ best.size < (if j = 0 then 0 else f (j - 1)) + 1 := by
            have := hdone.2
            omega
          rw [if_neg hnoup]
          refine ih _ best hsort' hsub' ?_ ?_ ?_ h4 h5
          · intro j2
            by_cases hjj : j2 = j
            · subst hjj
              rw [Function.update_same]
              exact hkj
            · rw [Function.update_noteq hjj]
              exact h1 j2
          · intro j2 hj2
            by_cases hjj : j2 = j
            · subst hjj
              rw [Function.update_same]
              exact hkle
            · rw [Function.update_noteq hjj]
              exact h2 j2 hj2
          · right
            refine ⟨?_, hdone.2⟩
            rw [Function.update_noteq (by omega : i ≠ j)]
            exact hdone.1

/-- Outer-loop invariant: running rows i0, ..., i0 + m - 1 of the dynamic program in
the symmetric case keeps the best block on the diagonal, with size at least every
diagonal run completed so far. -/
lemma smRowsSym (a : List String) (bj : String → List Nat) (alo ahi : Nat)
    (hB1 : ∀ w j, j ∈ bj w → a.getD j noWord = w ∧ j < a.length)
    (hcAll : ∀ i, i < a.length →
      bj (a.getD i noWord) = [] ∨ i ∈ bj (a.getD i noWord))
    (hsortAll : ∀ w, (bj w).Pairwise (· < ·))
    (hahi : ahi ≤ a.length) :
    ∀ (m i0 pv : Nat) (f : Nat → Nat) (best : Best),
      alo ≤ i0 → i0 + m ≤ ahi →
      (∀ j, f j ≤ wr a bj alo ahi j) →
      (∀ j, i0 ≤ j → f j ≤ pv) →
      (i0 < ahi → i0 ∈ bj (a.getD i0 noWord) → wr a bj alo ahi i0 = pv + 1) →
      (i0 = 0 → pv = 0) →
      (i0 ≠ 0 → f (i0 - 1) = pv) →
      (∀ j, j < i0 → wr a bj alo ahi j ≤ best.size) →
      best.i = best.j →
      (∀ j, j < i0 + m → wr a bj alo ahi j ≤
        (smRows a bj alo ahi (List.range' i0 m) f best).size) ∧
      (smRows a bj alo ahi (List.range' i0 m) f best).i =
        (smRows a bj alo ahi (List.range' i0 m) f best).j := by
  intro m
  induction m with
  | zero =>
    intro i0 pv f best _ _ _ _ _ _ _ h8 h9
    simp only [List.range'_zero, smRows]
    exact ⟨fun j hj => h8 j (by omega), h9⟩
  | succ m ih =>
    intro i0 pv f best hi1 hile hf1 hf2 hpv2 hpv0 hpvd h8 h9
    rw [List.range'_succ, smRows]
    have hi2 : i0 < ahi := by omega
    have hrow := smRowSymInv a bj alo ahi i0 pv hB1 hi1 hi2
      (hcAll i0 (by omega)) f hf1 hf2 (hpv2 hi2) hpv0 hpvd
      (bj (a.getD i0 noWord)) (fun _ => 0) best
      (hsortAll (a.getD i0 noWord)) (fun j h => h)
      (fun j => Nat.zero_le _) (fun j _ => Nat.zero_le _)
      ?_ h8 h9
    · obtain ⟨r1, r2, r3, r4, r5, r6⟩ := hrow
      have hnext := ih (i0 + 1) (wr a bj alo ahi i0) _ _
        (by omega) (by omega) r1 (fun j hj => r2 j (by omega))
        (fun hlt hmem => wr_succ a bj alo ahi i0 (by omega) hlt hmem)
        (fun h => absurd h (Nat.succ_ne_zero i0))
        (fun _ => by simpa using r3)
        (fun j hj => by
          rcases Nat.lt_succ_iff_lt_or_eq.1 hj with h | h
          · exact r5 j h
          · subst h
            exact r4)
        r6
      exact ⟨fun j hj => hnext.1 j (by omega), hnext.2⟩
    · by_cases hc : i0 ∈ bj (a.getD i0 noWord)
      · exact Or.inl ⟨hc, rfl⟩
      · refine Or.inr ⟨?_, ?_⟩
        · rw [wr_eq_zero a bj alo ahi i0 (fun hx => hc hx.2.2)]
        · rw [wr_eq_zero a bj alo ahi i0 (fun hx => hc hx.2.2)]
          exact Nat.zero_le _

/-- In the symmetric case the left-extension loop, started on a diagonal block,
slides all the way down to the left window edge: the equal-element guard is trivially
true on the diagonal. -/
lemma extendLeftF_sym (a : List String) (alo : Nat) :
    ∀ (fuel bi bs : Nat), alo ≤ bi → bi ≤ fuel →
      extendLeftF a a alo alo fuel ⟨bi, bi, bs⟩ = ⟨alo, alo, bs + (bi - alo)⟩ := by
  intro fuel
  induction fuel with
  | zero =>
    intro bi bs h1 h2
    rw [extendLeftF]
    have hbi : bi = 0 := by omega
    subst hbi
    have halo : alo = 0 := by omega
    subst halo
    rfl
  | succ fuel ih =>
    intro bi bs h1 h2
    rw [extendLeftF]
    dsimp only
    by_cases hg : alo < bi
    · rw [if_pos ⟨hg, hg, rfl⟩]
      have hih := ih (bi - 1) (bs + 1) (by omega) (by omega)
      have hsz : bs + 1 + (bi - 1 - alo) = bs + (bi - alo) := by omega
      rw [hsz] at hih
      exact hih
    · rw [if_neg (fun hc => hg hc.1)]
      have hbi : bi = alo := by omega
      subst hbi
      simp

/-- In the symmetric case the right-extension loop, started on a diagonal block,
slides all the way up to the right window edge. -/
lemma extendRightF_sym (a : List String) (ahi : Nat) :
    ∀ (fuel bi bs : Nat), bi + bs ≤ ahi → ahi - (bi + bs) ≤ fuel →
      extendRightF a a ahi ahi fuel ⟨bi, bi, bs⟩ = ⟨bi, bi, ahi - bi⟩ := by
  intro fuel
  induction fuel with
  | zero =>
    intro bi bs h1 h2
    rw [extendRightF]
    have hsz : bs = ahi - bi := by omega
    subst hsz
    rfl
  | succ fuel ih =>
    intro bi bs h1 h2
    rw [extendRightF]
    dsimp only
    by_cases hg : bi + bs < ahi
    · rw [if_pos ⟨hg, hg, rfl⟩]
      exact ih bi (bs + 1) (by omega) (by omega)
    · rw [if_neg (fun hc => hg hc.1)]
      have hsz : bs = ahi - bi := by omega
      subst hsz
      rfl

/-- On identical sequences, find_longest_match over a symmetric window returns the
whole window as one diagonal block: the dynamic program keeps the running best block
on the diagonal, and the two extension while-loops (which compare elements directly,
ignoring the b2j index and hence the autojunk heuristic) stretch it to the window
edges. -/
lemma flm_sym (a : List String) (bj : String → List Nat)
    (hB1 : ∀ w j, j ∈ bj w → a.getD j noWord = w ∧ j < a.length)
    (hcAll : ∀ i, i < a.length →
      bj (a.getD i noWord) = [] ∨ i ∈ bj (a.getD i noWord))
    (hsortAll : ∀ w, (bj w).Pairwise (· < ·))
    (alo ahi : Nat) (hahi : ahi ≤ a.length) (hlt : alo ≤ ahi) :
    find_longest_match a a bj alo ahi alo ahi = ⟨alo, alo, ahi - alo⟩ := by
  have hseed := smRows_inv a bj alo ahi alo ahi (ahi - alo) alo (fun _ => 0)
    ⟨alo, alo, 0⟩ (Nat.le_refl alo) (fun t ht => by omega) (fun j h => absurd rfl h)
    ⟨fun _ => ⟨rfl, rfl⟩, fun h => absurd rfl h⟩
  have hpv2 : alo < ahi → alo ∈ bj (a.getD alo noWord) →
      wr a bj alo ahi alo = 0 + 1 := by
    intro hlt2 hmem
    by_cases hz : alo = 0
    · subst hz
      rw [wr_base a bj 0 ahi (Nat.le_refl 0) hlt2 hmem]
    · obtain ⟨ap, rfl⟩ : ∃ ap, alo = ap + 1 := ⟨alo - 1, by omega⟩
      rw [wr_succ a bj (ap + 1) ahi ap (Nat.le_refl _) hlt2 hmem,
        wr_eq_zero a bj (ap + 1) ahi ap (fun hx => absurd hx.1 (by omega))]
  have h8 : ∀ j, j < alo → wr a bj alo ahi j ≤ (⟨alo, alo, 0⟩ : Best).size := by
    intro j hj
    show wr a bj alo ahi j ≤ 0
    rw [wr_eq_zero a bj alo ahi j (fun hx => absurd hx.1 (by omega))]
  have hdiag := (smRowsSym a bj alo ahi hB1 hcAll hsortAll hahi (ahi - alo) alo 0
    (fun _ => 0) ⟨alo, alo, 0⟩ (Nat.le_refl alo) (by omega)
    (fun j => Nat.zero_le _) (fun j _ => Nat.le_refl 0) hpv2 (fun _ => rfl)
    (fun _ => rfl) h8 rfl).2
  unfold find_longest_match
  generalize hsEq : smRows a bj alo ahi (List.range' alo (ahi - alo)) (fun _ => 0)
      ⟨alo, alo, 0⟩ = s at hseed hdiag ⊢
  obtain ⟨si, sj, ss⟩ := s
  dsimp only at hdiag
  subst hdiag
  have hbnd : alo ≤ si ∧ si + ss ≤ ahi := by
    by_cases h : ss = 0
    · have h2 := hseed.1 h
      dsimp only at h2
      omega
    · have h2 := hseed.2 h
      dsimp only at h2
      omega
  have hL := extendLeftF_sym a alo si si ss hbnd.1 (Nat.le_refl si)
  have hR := extendRightF_sym a ahi (ahi - (alo + (ss + (si - alo)))) alo
    (ss + (si - alo)) (by omega) (Nat.le_refl _)
  show extendRight a a ahi ahi (extendLeftF a a alo alo si ⟨si, si, ss⟩) =
    ⟨alo, alo, ahi - alo⟩
  rw [hL]
  show extendRightF a a ahi ahi (ahi - (alo + (ss + (si - alo))))
    ⟨alo, alo, ss + (si - alo)⟩ = ⟨alo, alo, ahi - alo⟩
  exact hR

/-- On identical sequences, get_matching_blocks returns the single full-length
diagonal block (absent when the sequence is empty) followed by the sentinel. -/
lemma get_matching_blocks_self (b : List String) :
    get_matching_blocks b b (b2j_fn b) =
      if b.length = 0 then [⟨0, 0, 0⟩]
      else [⟨0, 0, b.length⟩, ⟨b.length, b.length, 0⟩] := by
  have hflm := flm_sym b (b2j_fn b) (fun w j h => b2j_fn_mem b w j h)
    (fun i hi => b2j_fn_self b i hi) (fun w => b2j_fn_sorted b w)
    0 b.length (Nat.le_refl _) (Nat.zero_le _)
  by_cases hn : b.length = 0
  · rw [if_pos hn]
    unfold get_matching_blocks get_matching_blocks_rec
    rw [hn]
    rfl
  · rw [if_neg hn]
    obtain ⟨n, hb⟩ : ∃ n, b.length = n + 1 := ⟨b.length - 1, by omega⟩
    unfold get_matching_blocks get_matching_blocks_rec
    rw [hb] at hflm ⊢
    rw [show n + 1 - 0 = n + 1 from rfl, gmb_rec, hflm]
    simp [sortBlocks, insertBlock, merge_adjacent]

/-- On identical word lists, match_sequence matches every index of both sides: the
canonicalized lists coincide, so the matching blocks cover the full range. -/
lemma match_sequence_self (W : List String) (hom : List (List String)) :
    (match_sequence W W hom).1 = List.range W.length ∧
    (match_sequence W W hom).2.1 = List.range W.length := by
  unfold match_sequence
  have hgb := get_matching_blocks_self (create_convert hom W)
  have hlen := create_convert_length hom W
  rw [hlen] at hgb
  by_cases hn : W.length = 0
  · rw [if_pos hn] at hgb
    dsimp only
    rw [hgb, hn]
    constructor <;> rfl
  · rw [if_neg hn] at hgb
    dsimp only
    rw [hgb]
    constructor <;> simp [outsA, outsB]

/-- Classifying any word list against itself in the airtable variant always yields
the null verdict DELETE: the first branch catches single-word and empty lists, and
otherwise the full diagonal match leaves both residue sets empty, hitting the
100 percent match branch. -/
lemma detect_airtable_self (W : List String) (homOpt : Option (List (List String))) :
    detect_mispronunciation_airtable W W homOpt = strDELETE := by
  simp only [detect_mispronunciation_airtable]
  by_cases h1 : W.length = 1 ∨ W.length = 0
  · rw [if_pos h1]
  · rw [if_neg h1]
    have hms := match_sequence_self W (homOpt.getD HOMOPHONES_en)
    rw [hms.1, hms.2]
    have hne : ¬ ((List.range W.length).length = 0 ∧
        (List.range W.length).length = 0) := by
      simp only [List.length_range]
      omega
    rw [if_neg hne]
    have hempty : (Finset.range W.length).filter
        (fun idx => idx ∉ List.range W.length) = ∅ := by
      apply Finset.filter_eq_empty_iff.2
      intro x hx
      simp only [not_not, List.mem_range]
      exact Finset.mem_range.1 hx
    rw [hempty]
    rw [if_pos ⟨rfl, rfl⟩]

/-- Claim C2: classifying a word list W against itself.  First conjunct: in the
transcribe version of detect_mispronunciation, every such pair that reaches the
aligner (W not a single word and not filler-only) raises ValueError, because line 177
binds the 3-tuple returned by match_sequence to only two names — so the promised None
verdict for a perfect match is unreachable there, although the module docstring table
and the test file assert it.  Second conjunct: the airtable version does behave as
the claim intends, for every W and every homophone table: identical sequences always
align fully in SequenceMatcher, so the verdict is always the null verdict DELETE.
Third conjunct: the error at the concrete failing input of the module's own test
table, W = ["skel", "is", "a", "skeleton"]. -/
theorem claim_C2 :
    (∀ (W : List String) (homophones : Option (List (List String))),
      W.length ≠ 1 → (W.filter remove_fillers).length ≠ 0 →
      detect_mispronunciation_transcribe W W homophones = Except.error valueUnpackMsg) ∧
    (∀ (W : List String) (homophones : Option (List (List String))),
      detect_mispronunciation_airtable W W homophones = strDELETE) ∧
    detect_mispronunciation_transcribe ["skel", "is", "a", "skeleton"]
      ["skel", "is", "a", "skeleton"] none = Except.error valueUnpackMsg := by
  refine ⟨?_, fun W homophones => detect_airtable_self W homophones, rfl⟩
  intro W homophones h1 h2
  have hu : ∀ (a b : List String) (c : List (List String)),
      unpack2 (match_sequence_tuple a b c) = Except.error valueUnpackMsg :=
    fun a b c => rfl
  rw [detect_mispronunciation_transcribe]
  rw [if_neg (by omega : ¬ (W.length = 1 ∨ (W.filter remove_fillers).length = 0)), hu]

theorem claim_C2_witness :
    detect_mispronunciation_transcribe ["aa", "bb"] ["aa", "bb"] none =
      Except.error valueUnpackMsg :=
  claim_C2.1 ["aa", "bb"] none (by decide) (by decide)
